import Mathlib

/-!
VisTrace render target: a shallow embedding.

Embedding of `source/objects/RenderTarget.cpp`: the mip layout computed by `Resize`, the
format-dispatched pixel accessors `GetPixel` / `SetPixel`, the wrap-addressed bilinear
sampler, the mip generator, the string guard of the path sandbox, and `Load` and `Save` with
the image codec and the file system as parameters; and of `MipsFromDimensions` of
`source/Utils.cpp`.

Conventions of the embedding.

* `float` values are rationals (no NaN or infinity). In the first part float arithmetic is
  exact; the section on machines gives the accessors, the sampler and the mip generator with the
  rounding of every float operation as a parameter.
* `uint16_t`, `uint8_t` and `int` values are naturals and integers; the theorems carry the
  range of the C++ type wherever the width matters. `size_t` is 64 bits wide and every
  `size_t` computation is reduced modulo `2 ^ 64`.
* In the first part `a >> n` is the mathematical shift `a / 2 ^ n`, also where the count
  reaches the width of `int`, which C++ leaves undefined; the section on machines takes the
  shift of the processor as a parameter. `int` arithmetic is not wrapped: the values the
  sampler computes stay between `-1` and `2 * 65535`.
* The buffer is a list of memory cells, one per byte. `realloc` succeeds or fails as its
  caller is told by a boolean.
* Paths are strings with the separator `/`, and `fs::absolute` is `current_path() / p`, which
  keeps `.` and `..`; `fullPathName` gives the resolution of an implementation that collapses
  them.
* `RenderTarget.h` is not among the sources. The format tables, the default `Pixel` and the
  field types are taken from the specification, as noted at each definition.
-/

namespace VisTrace

/-! ## Formats and pixels -/

/-- The six pixel formats of a render target. -/
inductive RTFormat where
  | R8
  | RG88
  | RGB888
  | RF
  | RGFF
  | RGBFFF
  deriving DecidableEq, Repr

/-- Modelled from the spec: the table `CHANNELS` of `RenderTarget.h` (channel counts 1, 2, 3 in
each group of formats). -/
def CHANNELS : RTFormat → Nat
  | .R8 => 1
  | .RG88 => 2
  | .RGB888 => 3
  | .RF => 1
  | .RGFF => 2
  | .RGBFFF => 3

/-- Modelled from the spec: the table `STRIDES` of `RenderTarget.h` (one byte per channel for the
unsigned formats, four bytes per channel for the float formats). -/
def STRIDES : RTFormat → Nat
  | .R8 => 1
  | .RG88 => 1
  | .RGB888 => 1
  | .RF => 4
  | .RGFF => 4
  | .RGBFFF => 4

/-- Modelled from the spec: the struct `Pixel` of `RenderTarget.h`, four float components. -/
structure Pixel where
  r : ℚ
  g : ℚ
  b : ℚ
  a : ℚ
  deriving DecidableEq

/-- Modelled from the spec: the value-initialised `Pixel{}`, all four components zero. -/
def Pixel.zero : Pixel := ⟨0, 0, 0, 0⟩

/-! ## Memory -/

/-- One byte of the buffer. A byte is either a plain `uint8_t`, or the `i`-th byte of the object
representation of a float `v` stored through a `float*`. -/
inductive MemVal where
  | byte (b : Nat)
  | frag (v : ℚ) (i : Nat)
  deriving DecidableEq

/-- The cell at address `i` of a buffer; outside the allocation the read is not defined by the
language and the embedding returns a zero byte. -/
def rd (buf : List MemVal) (i : Nat) : MemVal := (buf[i]?).getD (MemVal.byte 0)

/-- Value of `mpBuffer[i]` read as `uint8_t`. The object representation of a float is not
modelled bytewise: a fragment reads as 0. -/
def loadByte (buf : List MemVal) (i : Nat) : Nat :=
  match rd buf i with
  | .byte b => b
  | .frag _ _ => 0

/-- Store of a `uint8_t` through `mpBuffer[i] = b`. -/
def storeByte (buf : List MemVal) (i : Nat) (b : Nat) : List MemVal := buf.set i (.byte b)

/-- Value of the IEEE-754 binary32 pattern held little-endian in four plain bytes. Infinities and
NaNs have no rational value and read as 0. -/
def f32Value (b0 b1 b2 b3 : Nat) : ℚ :=
  let bits := b0 + 256 * b1 + 65536 * b2 + 16777216 * b3
  let sign : ℚ := if bits / 2147483648 % 2 = 1 then -1 else 1
  let e := bits / 8388608 % 256
  let m := bits % 8388608
  if e = 0 then sign * m / 2 ^ 149
  else if e = 255 then 0
  else sign * (8388608 + m) * 2 ^ e / 2 ^ 150

/-- Value of `*reinterpret_cast<float*>(mpBuffer + i)`: the float whose four fragments lie at
`i .. i+3`, or the value of the bit pattern when the four cells are plain bytes. Any other mix of
cells is not modelled and reads as 0. -/
def loadFloat (buf : List MemVal) (i : Nat) : ℚ :=
  match rd buf i, rd buf (i + 1), rd buf (i + 2), rd buf (i + 3) with
  | .frag v 0, .frag v1 1, .frag v2 2, .frag v3 3 =>
    if v = v1 ∧ v = v2 ∧ v = v3 then v else 0
  | .byte b0, .byte b1, .byte b2, .byte b3 => f32Value b0 b1 b2 b3
  | _, _, _, _ => 0

/-- Store through `*reinterpret_cast<float*>(mpBuffer + i) = v`: four consecutive bytes. -/
def storeFloat (buf : List MemVal) (i : Nat) (v : ℚ) : List MemVal :=
  (((buf.set i (.frag v 0)).set (i + 1) (.frag v 1)).set (i + 2) (.frag v 2)).set (i + 3)
    (.frag v 3)

/-! ## The render target -/

/-- Reduction of a `size_t` computation modulo `2 ^ 64`. -/
def sizeT (n : Nat) : Nat := n % 2 ^ 64

/-- The fields of `RenderTarget`. `mpBuffer = none` is the null pointer. `mMipOffsets` is indexed
by mip level; the bound of the C++ array is declared in `RenderTarget.h` and is not modelled. -/
structure RenderTarget where
  mpBuffer : Option (List MemVal)
  mFormat : RTFormat
  mSize : Nat
  mWidth : Nat
  mHeight : Nat
  mMips : Nat
  mMipOffsets : Nat → Nat

/-- The field `mChannelSize`: assigned once, by the constructor, as `STRIDES[mFormat]`. -/
def RenderTarget.mChannelSize (t : RenderTarget) : Nat := STRIDES t.mFormat

/-- The field `mPixelSize`: assigned once, by the constructor, as
`mChannelSize * CHANNELS[mFormat]`. -/
def RenderTarget.mPixelSize (t : RenderTarget) : Nat := t.mChannelSize * CHANNELS t.mFormat

/-- `width >>= 1; if (width < 1) width = 1;` of the mip loops. -/
def halve (d : Nat) : Nat := if d >>> 1 < 1 then 1 else d >>> 1

/-- Local variables and fields the mip loop of `Resize` works on. -/
structure ResizeLoop where
  width : Nat
  height : Nat
  mSize : Nat
  mMipOffsets : Nat → Nat

/-- One iteration of the mip loop of `Resize`, at loop counter `mip`. -/
def resizeStep (pixelSize mip : Nat) (s : ResizeLoop) : ResizeLoop :=
  let width := halve s.width
  let height := halve s.height
  { width := width
    height := height
    mMipOffsets := Function.update s.mMipOffsets mip s.mSize
    mSize := sizeT (s.mSize + pixelSize * width * height) }

/-- The mip loop of `Resize`: `n` iterations, the first at loop counter `mip`. -/
def resizeLoop (pixelSize : Nat) : Nat → Nat → ResizeLoop → ResizeLoop
  | 0, _, s => s
  | n + 1, mip, s => resizeLoop pixelSize n (mip + 1) (resizeStep pixelSize mip s)

/-- `RenderTarget::Resize(width, height, mips)`; `allocOk` tells whether `realloc` returns a
block. The result is the returned flag and the target afterwards. -/
def RenderTarget.Resize (t : RenderTarget) (width height mips : Nat) (allocOk : Bool) :
    Bool × RenderTarget :=
  let mSize := sizeT (t.mPixelSize * width * height)
  if mSize = 0 then
    (false, { t with mSize := mSize, mpBuffer := none, mWidth := 0, mHeight := 0, mMips := 0 })
  else
    let s := resizeLoop t.mPixelSize (mips - 1) 1
      ⟨width, height, mSize, Function.update t.mMipOffsets 0 0⟩
    if allocOk then
      (true, { t with
        mSize := s.mSize, mWidth := width, mHeight := height, mMips := mips
        mMipOffsets := s.mMipOffsets
        mpBuffer := some (List.replicate s.mSize (MemVal.byte 0)) })
    else
      (false, { t with
        mSize := s.mSize, mWidth := width, mHeight := height, mMips := mips
        mMipOffsets := s.mMipOffsets
        mpBuffer := none })

/-- `RenderTarget::IsValid()`. -/
def RenderTarget.IsValid (t : RenderTarget) : Bool :=
  t.mpBuffer.isSome && decide (t.mSize > 0)

/-- `d >> mip` clamped to at least 1: the extent of one axis at level `mip`, as `GetPixel`,
`SetPixel` and `SampleBilinear` compute it. -/
def levelDim (d mip : Nat) : Nat := if d >>> mip < 1 then 1 else d >>> mip

/-- The byte offset `mMipOffsets[mip] + (y * width + x) * mPixelSize` of the accessors. -/
def RenderTarget.pixelOffset (t : RenderTarget) (x y mip : Nat) : Nat :=
  sizeT (t.mMipOffsets mip + (y * levelDim t.mWidth mip + x) * t.mPixelSize)

/-- The `switch (mFormat)` of `GetPixel`, with its fall-through from the widest format down. -/
def readPixel (fmt : RTFormat) (channelSize : Nat) (buf : List MemVal) (offset : Nat) : Pixel :=
  match fmt with
  | .RGB888 =>
    { r := (loadByte buf offset : ℚ) / 255, g := (loadByte buf (offset + 1) : ℚ) / 255
      b := (loadByte buf (offset + 2) : ℚ) / 255, a := 0 }
  | .RG88 =>
    { r := (loadByte buf offset : ℚ) / 255, g := (loadByte buf (offset + 1) : ℚ) / 255
      b := 0, a := 0 }
  | .R8 => { r := (loadByte buf offset : ℚ) / 255, g := 0, b := 0, a := 0 }
  | .RGBFFF =>
    { r := loadFloat buf offset, g := loadFloat buf (offset + channelSize)
      b := loadFloat buf (offset + channelSize * 2), a := 0 }
  | .RGFF =>
    { r := loadFloat buf offset, g := loadFloat buf (offset + channelSize), b := 0, a := 0 }
  | .RF => { r := loadFloat buf offset, g := 0, b := 0, a := 0 }

/-- `RenderTarget::GetPixel(x, y, mip)`. -/
def RenderTarget.GetPixel (t : RenderTarget) (x y mip : Nat) : Pixel :=
  if !t.IsValid || decide (mip ≥ t.mMips) then Pixel.zero
  else
    let width := levelDim t.mWidth mip
    let height := levelDim t.mHeight mip
    if x ≥ width ∨ y ≥ height then Pixel.zero
    else
      let offset := t.pixelOffset x y mip
      if offset ≥ t.mSize then Pixel.zero
      else
        match t.mpBuffer with
        | none => Pixel.zero
        | some buf => readPixel t.mFormat t.mChannelSize buf offset

/-- `std::clamp(v, lo, hi)`. -/
def clampf (v lo hi : ℚ) : ℚ := if v < lo then lo else if hi < v then hi else v

/-- The byte stored for a channel `c`: `std::clamp(c * 255.f, 0.f, 255.f)` converted to
`uint8_t`, which truncates; the clamped value is not negative, so truncation is the floor. -/
def toByte (c : ℚ) : Nat := ⌊clampf (c * 255) 0 255⌋.toNat % 256

/-- The `switch (mFormat)` of `SetPixel`, with its fall-through: the stores happen in the order
b, g, r. -/
def writePixel (fmt : RTFormat) (channelSize : Nat) (buf : List MemVal) (offset : Nat)
    (pixel : Pixel) : List MemVal :=
  match fmt with
  | .RGB888 =>
    storeByte (storeByte (storeByte buf (offset + 2) (toByte pixel.b)) (offset + 1)
      (toByte pixel.g)) offset (toByte pixel.r)
  | .RG88 => storeByte (storeByte buf (offset + 1) (toByte pixel.g)) offset (toByte pixel.r)
  | .R8 => storeByte buf offset (toByte pixel.r)
  | .RGBFFF =>
    storeFloat (storeFloat (storeFloat buf (offset + channelSize * 2) pixel.b)
      (offset + channelSize) pixel.g) offset pixel.r
  | .RGFF => storeFloat (storeFloat buf (offset + channelSize) pixel.g) offset pixel.r
  | .RF => storeFloat buf offset pixel.r

/-- `RenderTarget::SetPixel(x, y, pixel, mip)`: the target afterwards. -/
def RenderTarget.SetPixel (t : RenderTarget) (x y : Nat) (pixel : Pixel) (mip : Nat) :
    RenderTarget :=
  if !t.IsValid || decide (mip ≥ t.mMips) then t
  else
    let width := levelDim t.mWidth mip
    let height := levelDim t.mHeight mip
    if x ≥ width ∨ y ≥ height then t
    else
      let offset := t.pixelOffset x y mip
      if offset ≥ t.mSize then t
      else
        match t.mpBuffer with
        | none => t
        | some buf =>
          { t with mpBuffer := some (writePixel t.mFormat t.mChannelSize buf offset pixel) }

/-! ## Bilinear sampling and mip generation -/

/-- The function `intmod`: `(a % b + b) % b`, where `%` is the remainder of the truncating
division of C++. The values that reach it stay far inside the range of `int`. -/
def intmod (a b : ℤ) : ℤ := Int.tmod (Int.tmod a b + b) b

/-- Conversion of an `int` to the `uint16_t` parameter of `GetPixel`. -/
def toUInt16 (a : ℤ) : Nat := (a % 65536).toNat

/-- The blend of the four corners in one channel, as written in the returned `Pixel`. -/
def blend (c00 c10 c01 c11 uFract uFractInv vFract vFractInv : ℚ) : ℚ :=
  (c00 * uFractInv + c10 * uFract) * vFractInv + (c01 * uFractInv + c11 * uFract) * vFract

/-- `RenderTarget::SampleBilinear(u, v, mip)`. -/
def RenderTarget.SampleBilinear (t : RenderTarget) (u v : ℚ) (mip : Nat) : Pixel :=
  let width := levelDim t.mWidth mip
  let height := levelDim t.mHeight mip
  let u := u - ⌊u⌋
  let v := v - ⌊v⌋
  let u := u * width - 1 / 2
  let v := v * height - 1 / 2
  let x : ℤ := ⌊u⌋
  let y : ℤ := ⌊v⌋
  let uFract := u - x
  let vFract := v - y
  let uFractInv := 1 - uFract
  let vFractInv := 1 - vFract
  let corners : ℤ → ℤ → Pixel := fun xOff yOff =>
    t.GetPixel (toUInt16 (intmod (x + xOff) width)) (toUInt16 (intmod (y + yOff) height)) mip
  { r := blend (corners 0 0).r (corners 1 0).r (corners 0 1).r (corners 1 1).r
      uFract uFractInv vFract vFractInv
    g := blend (corners 0 0).g (corners 1 0).g (corners 0 1).g (corners 1 1).g
      uFract uFractInv vFract vFractInv
    b := blend (corners 0 0).b (corners 1 0).b (corners 0 1).b (corners 1 1).b
      uFract uFractInv vFract vFractInv
    a := blend (corners 0 0).a (corners 1 0).a (corners 0 1).a (corners 1 1).a
      uFract uFractInv vFract vFractInv }

/-- Body of the two pixel loops of `GenerateMIPs`: sample the previous level at the centre of
pixel `(x, y)` and store the sample in level `mip`. -/
def genPixel (width height mip : Nat) (t : RenderTarget) (x y : Nat) : RenderTarget :=
  let u : ℚ := ((x : ℚ) + 1 / 2) / width
  let v : ℚ := ((y : ℚ) + 1 / 2) / height
  t.SetPixel x y (t.SampleBilinear u v (mip - 1)) mip

/-- The loop over `x` of `GenerateMIPs`, for one row `y`. -/
def genRow (width height mip : Nat) (t : RenderTarget) (y : Nat) : RenderTarget :=
  (List.range width).foldl (fun t x => genPixel width height mip t x y) t

/-- The loop over `y` of `GenerateMIPs`, for one level. The rows run in program order. -/
def genLevel (width height mip : Nat) (t : RenderTarget) : RenderTarget :=
  (List.range height).foldl (fun t y => genRow width height mip t y) t

/-- The loop over the levels of `GenerateMIPs`: `n` iterations, the first at loop counter `mip`,
entered with the extents `width`, `height` of the level before. -/
def genLoop : Nat → Nat → Nat → Nat → RenderTarget → RenderTarget
  | 0, _, _, _, t => t
  | n + 1, mip, width, height, t =>
    genLoop n (mip + 1) (halve width) (halve height)
      (genLevel (halve width) (halve height) mip t)

/-- `RenderTarget::GenerateMIPs()`: the target afterwards. -/
def RenderTarget.GenerateMIPs (t : RenderTarget) : RenderTarget :=
  if !t.IsValid then t else genLoop (t.mMips - 1) 1 t.mWidth t.mHeight t

/-! ## The path sandbox -/

/-- The static function `verifyInRoot(target, root)` on the strings of the two paths: the first
`root.length()` characters of the target are compared with the root. -/
def verifyInRoot (target root : String) : Bool :=
  let finalPathString := target.toList
  let workingDirString := root.toList
  let rootSubStr := finalPathString.take workingDirString.length
  if rootSubStr ≠ workingDirString then false else true

/-- Splits a string of characters at each `/`. -/
def splitSlash : List Char → List (List Char)
  | [] => [[]]
  | c :: cs =>
    match splitSlash cs with
    | [] => [[c]]
    | w :: ws => if c = '/' then [] :: w :: ws else (c :: w) :: ws

/-- The component sequence of a path: its names between separators, empty names dropped. -/
def pathComponents (p : String) : List (List Char) :=
  (splitSlash p.toList).filter (fun w => !w.isEmpty)

/-- Whether `target` is the root or lies below it: the components of `root` are the first
components of `target`. -/
def isDescendant (target root : String) : Bool :=
  (pathComponents root).isPrefixOf (pathComponents target)

/-- The pixel `GetPixel` reads back after `SetPixel` stored `p`. -/
def storedPixel (fmt : RTFormat) (p : Pixel) : Pixel :=
  match fmt with
  | .RGB888 =>
    { r := (toByte p.r : ℚ) / 255, g := (toByte p.g : ℚ) / 255, b := (toByte p.b : ℚ) / 255
      a := 0 }
  | .RG88 => { r := (toByte p.r : ℚ) / 255, g := (toByte p.g : ℚ) / 255, b := 0, a := 0 }
  | .R8 => { r := (toByte p.r : ℚ) / 255, g := 0, b := 0, a := 0 }
  | .RGBFFF => { r := p.r, g := p.g, b := p.b, a := 0 }
  | .RGFF => { r := p.r, g := p.g, b := 0, a := 0 }
  | .RF => { r := p.r, g := 0, b := 0, a := 0 }


/-! ## The mip layout in closed form -/

/-- Number of pixels held by the levels before level `k` of a chain over a `w` by `h` base. -/
def pixelsBefore (w h : Nat) : Nat → Nat
  | 0 => 0
  | k + 1 => pixelsBefore w h k + levelDim w k * levelDim h k

/-- Position of pixel `(x, y)` of level `mip` in the sequence of all pixels of the chain. -/
def pixelIndex (w h mip x y : Nat) : Nat := pixelsBefore w h mip + y * levelDim w mip + x

/-- The layout invariant of a target that holds a buffer: the fields lie in the range of their
C++ types, the offsets of the levels are the running totals of the sizes of the levels before
them, and the buffer has exactly `mSize` bytes. `Resize` establishes it whenever it returns true
and `SetPixel` keeps it. -/
structure RenderTarget.Layout (t : RenderTarget) : Prop where
  buffer : ∃ buf, t.mpBuffer = some buf ∧ buf.length = t.mSize
  width_pos : 1 ≤ t.mWidth
  width_lt : t.mWidth < 65536
  height_pos : 1 ≤ t.mHeight
  height_lt : t.mHeight < 65536
  mips_lt : t.mMips < 256
  offsets : ∀ k, k < t.mMips →
    t.mMipOffsets k = t.mPixelSize * pixelsBefore t.mWidth t.mHeight k
  size : t.mSize = t.mPixelSize * pixelsBefore t.mWidth t.mHeight (max 1 t.mMips)

/-- The two targets agree on every field but the contents of the buffer. -/
def RenderTarget.SameFields (t s : RenderTarget) : Prop :=
  t.mFormat = s.mFormat ∧ t.mSize = s.mSize ∧ t.mWidth = s.mWidth ∧ t.mHeight = s.mHeight ∧
    t.mMips = s.mMips ∧ t.mMipOffsets = s.mMipOffsets

/-- Arithmetic mean of four pixels, channel by channel. -/
def mean4 (p q r s : Pixel) : Pixel :=
  { r := (p.r + q.r + r.r + s.r) / 4
    g := (p.g + q.g + r.g + s.g) / 4
    b := (p.b + q.b + r.b + s.b) / 4
    a := (p.a + q.a + r.a + s.a) / 4 }

/-- The channels a format stores, in their order in memory. -/
def storedChannels : RTFormat → List (Pixel → ℚ)
  | .R8 => [Pixel.r]
  | .RG88 => [Pixel.r, Pixel.g]
  | .RGB888 => [Pixel.r, Pixel.g, Pixel.b]
  | .RF => [Pixel.r]
  | .RGFF => [Pixel.r, Pixel.g]
  | .RGBFFF => [Pixel.r, Pixel.g, Pixel.b]

/-- The test `isFloat` of `Save`: whether the format stores floats. -/
def isFloat (fmt : RTFormat) : Bool :=
  fmt = .RGBFFF || fmt = .RGFF || fmt = .RF

/-- A target of the given format that holds no buffer. -/
def emptyTarget (fmt : RTFormat) : RenderTarget :=
  { mpBuffer := none, mFormat := fmt, mSize := 0, mWidth := 0, mHeight := 0, mMips := 0
    mMipOffsets := fun _ => 0 }

/-- A 2 by 2 float target with two levels and four distinct base pixels. -/
def sample22 : RenderTarget :=
  (((((emptyTarget .RGBFFF).Resize 2 2 2 true).2.SetPixel 0 0 ⟨1, 0, 0, 0⟩ 0).SetPixel 1 0
    ⟨0, 1, 0, 0⟩ 0).SetPixel 0 1 ⟨0, 0, 1, 0⟩ 0).SetPixel 1 1 ⟨1, 1, 1, 0⟩ 0

/-- A 4 by 4 target of three 8-bit channels with three levels, as `Resize` leaves it. -/
def sample443 : RenderTarget := ((emptyTarget .RGB888).Resize 4 4 3 true).2

/-! ## Paths

Paths are the strings `fs::path::string()` returns, with `/` as the separator (on which
`make_preferred` changes nothing). -/

/-- `fs::path::is_absolute()`. -/
def isAbsolute (p : String) : Bool := p.toList.head? = some '/'

/-- `fs::path::operator/`: an absolute right-hand side replaces the path, otherwise it is
appended after a separator. -/
def pathJoin (base p : String) : String :=
  if isAbsolute p then p
  else if base.toList = [] then p
  else if base.toList.getLast? = some '/' then base ++ p
  else base ++ "/" ++ p

/-- `fs::absolute(p)`: `current_path() / p`. The path is not normalised: `.` and `..` stay. -/
def absolute (currentPath p : String) : String := pathJoin currentPath p

/-- Drops `.` components and lets each `..` remove the component before it. -/
def collapseDots : List (List Char) → List (List Char) → List (List Char)
  | acc, [] => acc.reverse
  | acc, c :: cs =>
    if c = ['.'] then collapseDots acc cs
    else if c = ['.', '.'] then collapseDots (acc.drop 1) cs
    else collapseDots (c :: acc) cs

/-- An absolute path with `.` and `..` collapsed, as an implementation of `fs::absolute` that
normalises (`GetFullPathNameW`) returns it. -/
def fullPathName (p : String) : String :=
  String.mk ((collapseDots [] (pathComponents p)).foldr (fun c s => '/' :: (c ++ s)) [])

/-- `fs::path::filename()`: what follows the last separator. -/
def pathFilename (p : String) : List Char :=
  (p.toList.reverse.takeWhile (fun c => c ≠ '/')).reverse

/-- `fs::path::extension()`: the part of the filename from its rightmost period on; empty when
the filename is `.` or `..`, has no period, or has its only period in front. -/
def pathExtension (p : String) : String :=
  let f := pathFilename p
  let tail := (f.reverse.takeWhile (fun c => c ≠ '.')).reverse
  if f = ['.'] ∨ f = ['.', '.'] then ""
  else if tail.length = f.length then ""
  else if tail.length + 1 = f.length then ""
  else String.mk ('.' :: tail)

/-- `fs::path::has_extension()`. -/
def hasExtension (p : String) : Bool := pathExtension p ≠ ""

/-- `fs::path::parent_path()`: what precedes the last separator. -/
def pathParent (p : String) : String :=
  let head := ((p.toList.reverse.dropWhile (fun c => c ≠ '/')).drop 1).reverse
  if head = [] ∧ isAbsolute p then "/" else String.mk head

/-- The test on the extension that `Load` and `Save` share. -/
def validExtension (ext : String) : Bool :=
  ext == "png" || ext == "hdr" || ext == "jpg" || ext == "bmp"

/-! ## Mip count of a full chain -/

/-- `ceilf(log2(n))` for a positive `n`, with exact arithmetic: the least `c` with `n ≤ 2 ^ c`.
For `n = 0` the C++ value is not defined (`log2(0)` is minus infinity); the embedding gives 0. -/
def ceilLog2 (n : Nat) : Nat := Nat.clog 2 n

/-- `MipsFromDimensions(width, height)` of `Utils.cpp`; the result is converted to `uint8_t`. -/
def MipsFromDimensions (width height : Nat) : Nat :=
  let widthMips := ceilLog2 width
  let heightMips := ceilLog2 height
  (max widthMips heightMips + 1) % 256

/-! ## Load and Save -/

/-- A decoded image: the two dimensions the codec reports through `x` and `y` and the bytes it
returns. -/
structure Image where
  width : Nat
  height : Nat
  data : List MemVal

/-- What `Load` meets outside the target: the current directory, the directories that exist, the
two decoders of the codec (`none` is a returned `NULL`, which leaves the dimensions at their
initial 0) and whether `realloc` succeeds. -/
structure World where
  currentPath : String
  is_directory : String → Bool
  stbi_load : String → Nat → Option Image
  stbi_loadf : String → Nat → Option Image
  allocOk : Bool

/-- `RenderTarget::GetRawData(mip)`: the offset of the level in the buffer, `none` for
`nullptr`. -/
def RenderTarget.GetRawData (t : RenderTarget) (mip : Nat) : Option Nat :=
  if !t.IsValid || decide (mip ≥ t.mMips) then none else some (t.mMipOffsets mip)

/-- `memcpy(dst + off, src, n)` on the cells of the buffer. Cells past the end of the allocation
are not kept: a copy that runs over the end is not defined by the language. -/
def memcpy (dst : List MemVal) (off : Nat) (src : List MemVal) (n : Nat) : List MemVal :=
  (List.range n).foldl (fun b i => b.set (off + i) (rd src i)) dst

/-- The byte count `mPixelSize * imageWidth * imageHeight` that `Load` hands to `memcpy`. -/
def RenderTarget.copySize (t : RenderTarget) (img : Image) : Nat :=
  sizeT (t.mPixelSize * img.width * img.height)

/-- The `memcpy` of `Load` into `GetRawData()`. -/
def RenderTarget.copyImage (t : RenderTarget) (img : Image) : RenderTarget :=
  match t.GetRawData 0, t.mpBuffer with
  | some off, some buf => { t with mpBuffer := some (memcpy buf off img.data (t.copySize img)) }
  | _, _ => t

/-- The part of `Load` the two branches of its `switch` share: the mip count, the `Resize` to the
image (whose `int` dimensions are converted to `uint16_t`) and the copy. -/
def RenderTarget.loadImage (t : RenderTarget) (allocOk : Bool) (img : Image)
    (generateMips : Bool) : Bool × RenderTarget :=
  let mips :=
    if generateMips then MipsFromDimensions (img.width % 65536) (img.height % 65536) else 1
  let resized := t.Resize (img.width % 65536) (img.height % 65536) mips allocOk
  if !resized.1 then (false, resized.2) else (true, resized.2.copyImage img)

/-- `RenderTarget::Load(filepath, generateMips)`: the returned flag and the target afterwards.
The `const char*` that `Load` takes from the string of `finalPath` is read as that string. The
branch of the unsigned formats does not test the decoder's result: on `NULL` it goes on with the
dimensions 0 by 0. -/
def RenderTarget.Load (t : RenderTarget) (w : World) (filepath : String) (generateMips : Bool) :
    Bool × RenderTarget :=
  if !t.IsValid then (false, t)
  else
    let channels := CHANNELS t.mFormat
    let workingDir := absolute w.currentPath (w.currentPath ++ "/garrysmod/data/vistrace")
    if !w.is_directory workingDir then (false, t)
    else
      let finalPath := absolute w.currentPath (pathJoin workingDir filepath)
      if !verifyInRoot finalPath workingDir then (false, t)
      else if hasExtension finalPath && !validExtension ((pathExtension finalPath).drop 1) then
        (false, t)
      else
        match t.mFormat with
        | .RGBFFF | .RGFF | .RF =>
          match w.stbi_loadf finalPath channels with
          | none => (false, t)
          | some img => t.loadImage w.allocOk img generateMips
        | .RGB888 | .RG88 | .R8 =>
          match w.stbi_load finalPath channels with
          | none => t.loadImage w.allocOk ⟨0, 0, []⟩ generateMips
          | some img => t.loadImage w.allocOk img generateMips

/-- The extension logic of `Save`: the path after the default extension was appended or not, and
the extension that selects the codec. -/
def saveName (fmt : RTFormat) (filename : String) : String × String :=
  let extension := if isFloat fmt then "hdr" else "png"
  if hasExtension filename then
    let ext := (pathExtension filename).drop 1
    if ext == "hdr" || ext == "png" || ext == "jpg" || ext == "bmp" then (filename, ext)
    else (filename ++ ("." ++ extension), extension)
  else (filename, extension)

/-- The call `Save` makes to the codec. -/
structure WriteCall where
  codec : String
  path : String
  width : Nat
  height : Nat
  channels : Nat
  mip : Nat

/-- What `Save` does outside the target: the directory it creates, when it does, and the write. -/
structure SaveEffect where
  createdDirectories : Option String
  write : Option WriteCall

/-- `RenderTarget::Save(filename, mip)`: the returned flag and the effect; `writeOk` is the
result of the codec. -/
def RenderTarget.Save (t : RenderTarget) (currentPath : String) (writeOk : Bool)
    (filename : String) (mip : Nat) : Bool × Option SaveEffect :=
  if mip ≥ t.mMips then (false, none)
  else
    let workingDir := absolute currentPath (currentPath ++ "/garrysmod/data")
    let named := saveName t.mFormat filename
    let finalPath := absolute currentPath (pathJoin workingDir named.1)
    if !verifyInRoot finalPath workingDir then (false, none)
    else
      let created := if pathParent named.1 ≠ "" then some (pathParent finalPath) else none
      let width := if mip > 0 then (if t.mWidth >>> mip < 1 then 1 else t.mWidth >>> mip)
        else t.mWidth
      let height := if mip > 0 then (if t.mHeight >>> mip < 1 then 1 else t.mHeight >>> mip)
        else t.mHeight
      if validExtension named.2 then
        (writeOk, some ⟨created, some ⟨named.2, finalPath, width, height, CHANNELS t.mFormat, mip⟩⟩)
      else (true, some ⟨created, none⟩)

/-- A world rooted at `/srv` in which every directory exists, `realloc` succeeds and both
decoders return `img` for every file. -/
def worldWith (img : Option Image) : World :=
  { currentPath := "/srv", is_directory := fun _ => true, stbi_load := fun _ _ => img
    stbi_loadf := fun _ _ => img, allocOk := true }

/-- A world like `worldWith`, in which the decoders find an image in the one file `path` and
fail on every other. -/
def worldWithFile (path : String) (img : Image) : World :=
  { currentPath := "/srv", is_directory := fun _ => true
    stbi_load := fun p _ => if p = path then some img else none
    stbi_loadf := fun p _ => if p = path then some img else none, allocOk := true }

/-- The remainder `a % b` of C++ with its precondition: a zero divisor has no result. -/
def intmodChecked (a b : ℤ) : Option ℤ := if b = 0 then none else some (intmod a b)

/-- The coordinate `SampleBilinear` hands to `GetPixel` along an axis of extent `dim`, for the
sample position `u` on that axis and the corner offset `off`. -/
def cornerCoord (u : ℚ) (dim : Nat) (off : ℤ) : Nat :=
  toUInt16 (intmod (⌊(u - ⌊u⌋) * dim - 1 / 2⌋ + off) dim)

/-- The read of one channel at an address, as the `switch` of `GetPixel` does it for the
format. -/
def loadChannel (fmt : RTFormat) (buf : List MemVal) (addr : Nat) : ℚ :=
  if isFloat fmt then loadFloat buf addr else (loadByte buf addr : ℚ) / 255

/-- A 2 by 2 target of one 8-bit channel with one level, as `Resize` leaves it. -/
def sample221 : RenderTarget := ((emptyTarget .R8).Resize 2 2 1 true).2

/-! ## The accessors on a machine

The definitions above take float arithmetic as exact and every shift as the mathematical one.
The definitions of this section are the same functions of `RenderTarget.cpp` with the two
places made explicit where the result rests on the machine that runs the program. Every float
operation is rounded on its own: no fused multiply-add and no excess precision. -/

/-- The two places where the result of the program rests on the machine: `fl` is the rounding
of the result of one `float` operation, and `shr a n` is the result of `a >> n` on the promoted
`int` for a `uint16_t` value `a`. C++ defines the shift for a count below 32 only
(`shr_defined`); for a larger count the result is what the processor gives, which is never more
than `a` (`shr_le`), so that the conversion of the result to `uint16_t` changes nothing. -/
structure Machine where
  fl : ℚ → ℚ
  shr : Nat → Nat → Nat
  shr_defined : ∀ a n, n < 32 → shr a n = a >>> n
  shr_le : ∀ a n, shr a n ≤ a

/-- Rounding of a rational to the nearest IEEE-754 binary32 value, ties to even, as one float
operation rounds its exact result. Below the smallest normal exponent the spacing is that of the
subnormal numbers. Overflow to infinity is not modelled: no value of the program reaches
`2 ^ 128`. -/
def roundF32 (q : ℚ) : ℚ :=
  if q = 0 then 0
  else
    let e : ℤ := max (Int.log 2 |q|) (-126)
    let ulp : ℚ := 2 ^ (e - 23)
    let n : ℚ := q / ulp
    let f : ℤ := ⌊n⌋
    let k : ℤ :=
      if n - f < 1 / 2 then f
      else if 1 / 2 < n - f then f + 1
      else if f % 2 = 0 then f else f + 1
    k * ulp

/-- The machine of the conventions of the first part: exact float arithmetic, and the
mathematical shift for every count (the result of processors that shift the whole count). -/
def Machine.ideal : Machine where
  fl := id
  shr := fun a n => a >>> n
  shr_defined := fun _ _ _ => rfl
  shr_le := fun a n => by
    show a >>> n ≤ a
    rw [Nat.shiftRight_eq_div_pow]; exact Nat.div_le_self a (2 ^ n)

/-- An x86 processor: binary32 rounding of every float operation, and a shift that takes its
count modulo 32. -/
def Machine.x86 : Machine where
  fl := roundF32
  shr := fun a n => a >>> (n % 32)
  shr_defined := fun a n h => by
    show a >>> (n % 32) = a >>> n
    rw [Nat.mod_eq_of_lt h]
  shr_le := fun a n => by
    show a >>> (n % 32) ≤ a
    rw [Nat.shiftRight_eq_div_pow]; exact Nat.div_le_self a (2 ^ (n % 32))

/-- The shift of an x86 processor with float arithmetic taken as exact. -/
def Machine.x86Exact : Machine where
  fl := id
  shr := fun a n => a >>> (n % 32)
  shr_defined := fun a n h => by
    show a >>> (n % 32) = a >>> n
    rw [Nat.mod_eq_of_lt h]
  shr_le := fun a n => by
    show a >>> (n % 32) ≤ a
    rw [Nat.shiftRight_eq_div_pow]; exact Nat.div_le_self a (2 ^ (n % 32))

/-- `uint16_t width = mWidth >> mip; if (width < 1) width = 1;` of `GetPixel`, `SetPixel` and
`SampleBilinear`, with the shift of the machine. -/
def Machine.levelDim (m : Machine) (d mip : Nat) : Nat :=
  if m.shr d mip < 1 then 1 else m.shr d mip

/-- The byte offset `mMipOffsets[mip] + (y * width + x) * mPixelSize` of the accessors, with the
width the machine computes. -/
def RenderTarget.pixelOffsetOn (t : RenderTarget) (m : Machine) (x y mip : Nat) : Nat :=
  sizeT (t.mMipOffsets mip + (y * m.levelDim t.mWidth mip + x) * t.mPixelSize)

/-- The `switch (mFormat)` of `GetPixel`: `static_cast<float>(byte) / 255.f` is one rounded
division; a stored float is read as it is. -/
def readPixelOn (m : Machine) (fmt : RTFormat) (channelSize : Nat) (buf : List MemVal)
    (offset : Nat) : Pixel :=
  match fmt with
  | .RGB888 =>
    { r := m.fl ((loadByte buf offset : ℚ) / 255)
      g := m.fl ((loadByte buf (offset + 1) : ℚ) / 255)
      b := m.fl ((loadByte buf (offset + 2) : ℚ) / 255), a := 0 }
  | .RG88 =>
    { r := m.fl ((loadByte buf offset : ℚ) / 255)
      g := m.fl ((loadByte buf (offset + 1) : ℚ) / 255), b := 0, a := 0 }
  | .R8 => { r := m.fl ((loadByte buf offset : ℚ) / 255), g := 0, b := 0, a := 0 }
  | .RGBFFF =>
    { r := loadFloat buf offset, g := loadFloat buf (offset + channelSize)
      b := loadFloat buf (offset + channelSize * 2), a := 0 }
  | .RGFF =>
    { r := loadFloat buf offset, g := loadFloat buf (offset + channelSize), b := 0, a := 0 }
  | .RF => { r := loadFloat buf offset, g := 0, b := 0, a := 0 }

/-- `RenderTarget::GetPixel(x, y, mip)` on the machine `m`. -/
def RenderTarget.GetPixelOn (t : RenderTarget) (m : Machine) (x y mip : Nat) : Pixel :=
  if !t.IsValid || decide (mip ≥ t.mMips) then Pixel.zero
  else
    let width := m.levelDim t.mWidth mip
    let height := m.levelDim t.mHeight mip
    if x ≥ width ∨ y ≥ height then Pixel.zero
    else
      let offset := t.pixelOffsetOn m x y mip
      if offset ≥ t.mSize then Pixel.zero
      else
        match t.mpBuffer with
        | none => Pixel.zero
        | some buf => readPixelOn m t.mFormat t.mChannelSize buf offset

/-- The byte stored for a channel `c`: the rounded product `c * 255.f`, clamped to
`[0, 255]` and truncated by the conversion to `uint8_t`. -/
def toByteOn (m : Machine) (c : ℚ) : Nat := ⌊clampf (m.fl (c * 255)) 0 255⌋.toNat % 256

/-- The `switch (mFormat)` of `SetPixel` on the machine `m`. -/
def writePixelOn (m : Machine) (fmt : RTFormat) (channelSize : Nat) (buf : List MemVal)
    (offset : Nat) (pixel : Pixel) : List MemVal :=
  match fmt with
  | .RGB888 =>
    storeByte (storeByte (storeByte buf (offset + 2) (toByteOn m pixel.b)) (offset + 1)
      (toByteOn m pixel.g)) offset (toByteOn m pixel.r)
  | .RG88 =>
    storeByte (storeByte buf (offset + 1) (toByteOn m pixel.g)) offset (toByteOn m pixel.r)
  | .R8 => storeByte buf offset (toByteOn m pixel.r)
  | .RGBFFF =>
    storeFloat (storeFloat (storeFloat buf (offset + channelSize * 2) pixel.b)
      (offset + channelSize) pixel.g) offset pixel.r
  | .RGFF => storeFloat (storeFloat buf (offset + channelSize) pixel.g) offset pixel.r
  | .RF => storeFloat buf offset pixel.r

/-- `RenderTarget::SetPixel(x, y, pixel, mip)` on the machine `m`: the target afterwards. -/
def RenderTarget.SetPixelOn (t : RenderTarget) (m : Machine) (x y : Nat) (pixel : Pixel)
    (mip : Nat) : RenderTarget :=
  if !t.IsValid || decide (mip ≥ t.mMips) then t
  else
    let width := m.levelDim t.mWidth mip
    let height := m.levelDim t.mHeight mip
    if x ≥ width ∨ y ≥ height then t
    else
      let offset := t.pixelOffsetOn m x y mip
      if offset ≥ t.mSize then t
      else
        match t.mpBuffer with
        | none => t
        | some buf =>
          { t with mpBuffer := some (writePixelOn m t.mFormat t.mChannelSize buf offset pixel) }

/-- The blend of the four corners in one channel: four products, two sums, two products and a
sum, each rounded. -/
def blendOn (m : Machine) (c00 c10 c01 c11 uFract uFractInv vFract vFractInv : ℚ) : ℚ :=
  m.fl (m.fl (m.fl (m.fl (c00 * uFractInv) + m.fl (c10 * uFract)) * vFractInv) +
    m.fl (m.fl (m.fl (c01 * uFractInv) + m.fl (c11 * uFract)) * vFract))

/-- The four texel coordinates `SampleBilinear` computes on the machine `m` and hands to
`GetPixel`, in the order of the corners `[0][0]`, `[1][0]`, `[0][1]`, `[1][1]`. -/
def RenderTarget.cornersOn (t : RenderTarget) (m : Machine) (u v : ℚ) (mip : Nat) :
    List (Nat × Nat) :=
  let width := m.levelDim t.mWidth mip
  let height := m.levelDim t.mHeight mip
  let u := m.fl (u - ⌊u⌋)
  let v := m.fl (v - ⌊v⌋)
  let u := m.fl (m.fl (u * width) - 1 / 2)
  let v := m.fl (m.fl (v * height) - 1 / 2)
  let x : ℤ := ⌊u⌋
  let y : ℤ := ⌊v⌋
  let corner : ℤ → ℤ → Nat × Nat := fun xOff yOff =>
    (toUInt16 (intmod (x + xOff) width), toUInt16 (intmod (y + yOff) height))
  [corner 0 0, corner 1 0, corner 0 1, corner 1 1]

/-- `RenderTarget::SampleBilinear(u, v, mip)` on the machine `m`. -/
def RenderTarget.SampleBilinearOn (t : RenderTarget) (m : Machine) (u v : ℚ) (mip : Nat) :
    Pixel :=
  let width := m.levelDim t.mWidth mip
  let height := m.levelDim t.mHeight mip
  let u := m.fl (u - ⌊u⌋)
  let v := m.fl (v - ⌊v⌋)
  let u := m.fl (m.fl (u * width) - 1 / 2)
  let v := m.fl (m.fl (v * height) - 1 / 2)
  let x : ℤ := ⌊u⌋
  let y : ℤ := ⌊v⌋
  let uFract := m.fl (u - x)
  let vFract := m.fl (v - y)
  let uFractInv := m.fl (1 - uFract)
  let vFractInv := m.fl (1 - vFract)
  let corners : ℤ → ℤ → Pixel := fun xOff yOff =>
    t.GetPixelOn m (toUInt16 (intmod (x + xOff) width)) (toUInt16 (intmod (y + yOff) height))
      mip
  { r := blendOn m (corners 0 0).r (corners 1 0).r (corners 0 1).r (corners 1 1).r
      uFract uFractInv vFract vFractInv
    g := blendOn m (corners 0 0).g (corners 1 0).g (corners 0 1).g (corners 1 1).g
      uFract uFractInv vFract vFractInv
    b := blendOn m (corners 0 0).b (corners 1 0).b (corners 0 1).b (corners 1 1).b
      uFract uFractInv vFract vFractInv
    a := blendOn m (corners 0 0).a (corners 1 0).a (corners 0 1).a (corners 1 1).a
      uFract uFractInv vFract vFractInv }

/-- Body of the two pixel loops of `GenerateMIPs` on the machine `m`: the sum with `0.5f` and
the division by the extent are rounded. -/
def genPixelOn (m : Machine) (width height mip : Nat) (t : RenderTarget) (x y : Nat) :
    RenderTarget :=
  let u : ℚ := m.fl (m.fl ((x : ℚ) + 1 / 2) / width)
  let v : ℚ := m.fl (m.fl ((y : ℚ) + 1 / 2) / height)
  t.SetPixelOn m x y (t.SampleBilinearOn m u v (mip - 1)) mip

/-- The loop over `x` of `GenerateMIPs` on the machine `m`, for one row `y`. -/
def genRowOn (m : Machine) (width height mip : Nat) (t : RenderTarget) (y : Nat) :
    RenderTarget :=
  (List.range width).foldl (fun t x => genPixelOn m width height mip t x y) t

/-- The loop over `y` of `GenerateMIPs` on the machine `m`, for one level. -/
def genLevelOn (m : Machine) (width height mip : Nat) (t : RenderTarget) : RenderTarget :=
  (List.range height).foldl (fun t y => genRowOn m width height mip t y) t

/-- The loop over the levels of `GenerateMIPs` on the machine `m`; the extents are halved one
step at a time, which the language defines at every level. -/
def genLoopOn (m : Machine) : Nat → Nat → Nat → Nat → RenderTarget → RenderTarget
  | 0, _, _, _, t => t
  | n + 1, mip, width, height, t =>
    genLoopOn m n (mip + 1) (halve width) (halve height)
      (genLevelOn m (halve width) (halve height) mip t)

/-- `RenderTarget::GenerateMIPs()` on the machine `m`: the target afterwards. -/
def RenderTarget.GenerateMIPsOn (t : RenderTarget) (m : Machine) : RenderTarget :=
  if !t.IsValid then t else genLoopOn m (t.mMips - 1) 1 t.mWidth t.mHeight t

/-- The cell of the buffer at address `i`; a zero byte when the target holds no buffer. -/
def RenderTarget.cell (t : RenderTarget) (i : Nat) : MemVal :=
  match t.mpBuffer with
  | none => MemVal.byte 0
  | some buf => rd buf i

/-- A 4 by 4 target of one 8-bit channel with 40 levels, as `Resize` leaves it: 58 bytes, the
levels from 2 on hold one pixel each, level 32 at offset 50. -/
def sample4440 : RenderTarget := ((emptyTarget .R8).Resize 4 4 40 true).2

/-- A 2 by 2 target of one 8-bit channel with two levels whose base holds the bytes 120, 115, 58
and 243, as `Load` copies them from a decoded image. -/
def sampleBytes : RenderTarget :=
  ((emptyTarget .R8).Resize 2 2 2 true).2.copyImage
    ⟨2, 2, [MemVal.byte 120, MemVal.byte 115, MemVal.byte 58, MemVal.byte 243]⟩

/-- A pixel with each channel rounded to binary32. -/
def roundPixel (p : Pixel) : Pixel :=
  ⟨roundF32 p.r, roundF32 p.g, roundF32 p.b, roundF32 p.a⟩

/-- The target `sample4440` after `SetPixel(0, 0, (1, 0, 0, 0), 32)` and
`SetPixel(0, 0, (1, 0, 0, 0), 37)`: the one pixel of level 32 holds 1 (byte 50) and so does the
one pixel of level 37 (byte 55). -/
def sampleLevel32 : RenderTarget :=
  (sample4440.SetPixelOn Machine.x86 0 0 ⟨1, 0, 0, 0⟩ 32).SetPixelOn Machine.x86 0 0
    ⟨1, 0, 0, 0⟩ 37

/-- The target `sample4440` after `SetPixel(0, 0, (1, 0, 0, 0), 37)`: the one pixel of level 37
holds 1 (byte 55) and every other pixel is zero. -/
def sampleLevel37 : RenderTarget := sample4440.SetPixelOn Machine.x86 0 0 ⟨1, 0, 0, 0⟩ 37

/-- A 2 by 2 target of one 8-bit channel with two levels whose base holds the pixels 1, 0, 0
and 0 (the bytes 255, 0, 0, 0). -/
def sampleOne : RenderTarget :=
  ((emptyTarget .R8).Resize 2 2 2 true).2.SetPixel 0 0 ⟨1, 0, 0, 0⟩ 0

/-! ## Memory cells -/

theorem rd_set (buf : List MemVal) (i j : Nat) (a : MemVal) :
    rd (buf.set i a) j = if i = j ∧ i < buf.length then a else rd buf j := by
  unfold rd
  rw [List.getElem?_set]
  by_cases hij : i = j
  · subst hij
    by_cases hl : i < buf.length
    · simp [hl]
    · simp [hl, List.getElem?_eq_none (Nat.le_of_not_lt hl)]
  · simp [hij]

theorem loadByte_storeByte (buf : List MemVal) (i j b : Nat) :
    loadByte (storeByte buf i b) j = if i = j ∧ i < buf.length then b else loadByte buf j := by
  unfold loadByte storeByte
  rw [rd_set]
  split_ifs <;> rfl

theorem loadByte_storeByte_same (buf : List MemVal) (i b : Nat) (h : i < buf.length) :
    loadByte (storeByte buf i b) i = b := by
  rw [loadByte_storeByte, if_pos ⟨rfl, h⟩]

theorem loadByte_storeByte_ne (buf : List MemVal) (i j b : Nat) (h : i ≠ j) :
    loadByte (storeByte buf i b) j = loadByte buf j := by
  rw [loadByte_storeByte, if_neg (fun hc => h hc.1)]

theorem length_storeByte (buf : List MemVal) (i b : Nat) :
    (storeByte buf i b).length = buf.length := by
  simp [storeByte]

theorem length_storeFloat (buf : List MemVal) (i : Nat) (v : ℚ) :
    (storeFloat buf i v).length = buf.length := by
  simp [storeFloat]

theorem rd_storeFloat_of_disjoint (buf : List MemVal) (i j : Nat) (v : ℚ)
    (h : j < i ∨ i + 4 ≤ j) : rd (storeFloat buf i v) j = rd buf j := by
  have hne : ∀ k, k < 4 → ¬(i + k = j ∧ i + k < buf.length) := fun k hk hc => by omega
  unfold storeFloat
  simp only [rd_set, List.length_set]
  rw [if_neg (hne 3 (by omega)), if_neg (hne 2 (by omega)), if_neg (hne 1 (by omega)),
    if_neg (show ¬(i = j ∧ i < buf.length) from fun hc => by omega)]

theorem rd_storeFloat_same (buf : List MemVal) (i k : Nat) (v : ℚ)
    (h : i + 4 ≤ buf.length) (hk : k < 4) : rd (storeFloat buf i v) (i + k) = .frag v k := by
  unfold storeFloat
  simp only [rd_set, List.length_set]
  have hk4 : k = 0 ∨ k = 1 ∨ k = 2 ∨ k = 3 := by omega
  rcases hk4 with rfl | rfl | rfl | rfl
  · rw [if_neg (by omega), if_neg (by omega), if_neg (by omega)]
    exact if_pos ⟨rfl, by omega⟩
  · rw [if_neg (by omega), if_neg (by omega)]
    exact if_pos ⟨rfl, by omega⟩
  · rw [if_neg (by omega)]
    exact if_pos ⟨rfl, by omega⟩
  · exact if_pos ⟨rfl, by omega⟩

theorem loadFloat_storeFloat_same (buf : List MemVal) (i : Nat) (v : ℚ)
    (h : i + 4 ≤ buf.length) : loadFloat (storeFloat buf i v) i = v := by
  have h0 := rd_storeFloat_same buf i 0 v h (by omega)
  have h1 := rd_storeFloat_same buf i 1 v h (by omega)
  have h2 := rd_storeFloat_same buf i 2 v h (by omega)
  have h3 := rd_storeFloat_same buf i 3 v h (by omega)
  rw [Nat.add_zero] at h0
  unfold loadFloat
  rw [h0, h1, h2, h3]
  simp

theorem loadFloat_storeFloat_of_disjoint (buf : List MemVal) (i j : Nat) (v : ℚ)
    (h : j + 4 ≤ i ∨ i + 4 ≤ j) : loadFloat (storeFloat buf i v) j = loadFloat buf j := by
  unfold loadFloat
  rw [rd_storeFloat_of_disjoint buf i j v (by omega),
    rd_storeFloat_of_disjoint buf i (j + 1) v (by omega),
    rd_storeFloat_of_disjoint buf i (j + 2) v (by omega),
    rd_storeFloat_of_disjoint buf i (j + 3) v (by omega)]

theorem f32Value_zero : f32Value 0 0 0 0 = 0 := by
  simp [f32Value]

theorem loadFloat_replicate_zero (n i : Nat) :
    loadFloat (List.replicate n (MemVal.byte 0)) i = 0 := by
  have h : ∀ j, rd (List.replicate n (MemVal.byte 0)) j = MemVal.byte 0 := by
    intro j
    unfold rd
    rw [List.getElem?_replicate]
    split <;> rfl
  unfold loadFloat
  rw [h, h, h, h]
  exact f32Value_zero

theorem loadByte_replicate_zero (n i : Nat) :
    loadByte (List.replicate n (MemVal.byte 0)) i = 0 := by
  have h : rd (List.replicate n (MemVal.byte 0)) i = MemVal.byte 0 := by
    unfold rd
    rw [List.getElem?_replicate]
    split <;> rfl
  unfold loadByte
  rw [h]

theorem length_writePixel (fmt : RTFormat) (cs : Nat) (buf : List MemVal) (o : Nat) (p : Pixel) :
    (writePixel fmt cs buf o p).length = buf.length := by
  cases fmt <;> simp [writePixel, length_storeByte, length_storeFloat]

theorem readPixel_writePixel_same (fmt : RTFormat) (buf : List MemVal) (o : Nat) (p : Pixel)
    (h : o + STRIDES fmt * CHANNELS fmt ≤ buf.length) :
    readPixel fmt (STRIDES fmt) (writePixel fmt (STRIDES fmt) buf o p) o = storedPixel fmt p := by
  cases fmt <;> simp only [STRIDES, CHANNELS] at h
  · simp only [readPixel, writePixel, storedPixel]
    rw [loadByte_storeByte_same _ _ _ (by omega)]
  · simp only [readPixel, writePixel, storedPixel]
    rw [loadByte_storeByte_same _ _ _ (by simp only [length_storeByte]; omega),
      loadByte_storeByte_ne _ _ _ _ (by omega),
      loadByte_storeByte_same _ _ _ (by omega)]
  · simp only [readPixel, writePixel, storedPixel]
    rw [loadByte_storeByte_same _ _ _ (by simp only [length_storeByte]; omega),
      loadByte_storeByte_ne _ _ _ _ (by omega),
      loadByte_storeByte_same _ _ _ (by simp only [length_storeByte]; omega),
      loadByte_storeByte_ne _ _ _ _ (by omega),
      loadByte_storeByte_ne _ _ _ _ (by omega),
      loadByte_storeByte_same _ _ _ (by omega)]
  · simp only [readPixel, writePixel, storedPixel]
    rw [loadFloat_storeFloat_same _ _ _ (by omega)]
  · simp only [readPixel, writePixel, storedPixel, STRIDES]
    rw [loadFloat_storeFloat_same _ _ _ (by simp only [length_storeFloat]; omega),
      loadFloat_storeFloat_of_disjoint _ _ _ _ (by omega),
      loadFloat_storeFloat_same _ _ _ (by omega)]
  · simp only [readPixel, writePixel, storedPixel, STRIDES]
    rw [loadFloat_storeFloat_same _ _ _ (by simp only [length_storeFloat]; omega),
      loadFloat_storeFloat_of_disjoint _ _ _ _ (by omega),
      loadFloat_storeFloat_same _ _ _ (by simp only [length_storeFloat]; omega),
      loadFloat_storeFloat_of_disjoint _ _ _ _ (by omega),
      loadFloat_storeFloat_of_disjoint _ _ _ _ (by omega),
      loadFloat_storeFloat_same _ _ _ (by omega)]

theorem readPixel_writePixel_of_disjoint (fmt : RTFormat) (buf : List MemVal) (o o2 : Nat)
    (p : Pixel)
    (h : o + STRIDES fmt * CHANNELS fmt ≤ o2 ∨ o2 + STRIDES fmt * CHANNELS fmt ≤ o) :
    readPixel fmt (STRIDES fmt) (writePixel fmt (STRIDES fmt) buf o2 p) o
      = readPixel fmt (STRIDES fmt) buf o := by
  cases fmt <;> simp only [STRIDES, CHANNELS] at h <;>
    simp only [readPixel, writePixel, STRIDES] <;>
    first
      | simp (disch := omega) only [loadByte_storeByte_ne]
      | simp (disch := omega) only [loadFloat_storeFloat_of_disjoint]

theorem readPixel_replicate_zero (fmt : RTFormat) (cs n o : Nat) :
    readPixel fmt cs (List.replicate n (MemVal.byte 0)) o = Pixel.zero := by
  cases fmt <;>
    simp [readPixel, loadByte_replicate_zero, loadFloat_replicate_zero, Pixel.zero]

/-! ## Level extents -/

theorem levelDim_eq_max (d mip : Nat) : levelDim d mip = max 1 (d >>> mip) := by
  unfold levelDim
  split <;> omega

theorem levelDim_pos (d mip : Nat) : 1 ≤ levelDim d mip := by
  rw [levelDim_eq_max]; exact le_max_left _ _

theorem levelDim_zero (d : Nat) (hd : 1 ≤ d) : levelDim d 0 = d := by
  simp [levelDim]; omega

theorem levelDim_succ (d mip : Nat) : levelDim d (mip + 1) = halve (levelDim d mip) := by
  have h : d >>> (mip + 1) = (d >>> mip) / 2 := by
    rw [Nat.shiftRight_succ]
  unfold levelDim halve
  rw [h]
  simp only [Nat.shiftRight_eq_div_pow, pow_one]
  split_ifs <;> omega

theorem levelDim_le (d mip : Nat) : levelDim d mip ≤ max 1 d := by
  rw [levelDim_eq_max, Nat.shiftRight_eq_div_pow]
  have : d / 2 ^ mip ≤ d := Nat.div_le_self _ _
  omega

/-! ## Guards of the accessors -/

theorem GetPixel_of_guard (t : RenderTarget) (x y mip : Nat)
    (h : t.IsValid = false ∨ t.mMips ≤ mip ∨ levelDim t.mWidth mip ≤ x ∨
      levelDim t.mHeight mip ≤ y) : t.GetPixel x y mip = Pixel.zero := by
  unfold RenderTarget.GetPixel
  rcases h with h | h | h | h
  · simp [h]
  · simp [h]
  · split
    · rfl
    · simp [h]
  · split
    · rfl
    · simp [h]

theorem SetPixel_of_guard (t : RenderTarget) (x y mip : Nat) (p : Pixel)
    (h : t.IsValid = false ∨ t.mMips ≤ mip ∨ levelDim t.mWidth mip ≤ x ∨
      levelDim t.mHeight mip ≤ y) : t.SetPixel x y p mip = t := by
  unfold RenderTarget.SetPixel
  rcases h with h | h | h | h
  · simp [h]
  · simp [h]
  · split
    · rfl
    · simp [h]
  · split
    · rfl
    · simp [h]

/-! ## Sampler -/

theorem intmod_of_lt (a b : ℤ) (h0 : 0 ≤ a) (hb : a < b) : intmod a b = a := by
  unfold intmod
  rw [Int.tmod_eq_of_lt h0 hb]
  rw [Int.tmod_eq_emod (by omega) (by omega)]
  rw [Int.add_emod_self, Int.emod_eq_of_lt h0 hb]

theorem toUInt16_natCast (n : Nat) (h : n < 65536) : toUInt16 (n : ℤ) = n := by
  unfold toUInt16
  rw [Int.emod_eq_of_lt (by omega) (by omega)]
  simp

theorem blend_zero_fract (c00 c10 c01 c11 : ℚ) : blend c00 c10 c01 c11 0 1 0 1 = c00 := by
  simp [blend]

theorem GetPixel_a (t : RenderTarget) (x y mip : Nat) : (t.GetPixel x y mip).a = 0 := by
  unfold RenderTarget.GetPixel
  split
  · rfl
  · simp only
    split
    · rfl
    · split
      · rfl
      · split
        · rfl
        · unfold readPixel; split <;> rfl

theorem centre_coord (x w : Nat) (hx : x < w) :
    (((x : ℚ) + 1 / 2) / (w : ℚ) - ((⌊((x : ℚ) + 1 / 2) / (w : ℚ)⌋ : ℤ) : ℚ)) * (w : ℚ) - 1 / 2
      = (x : ℚ) := by
  have hw : (0 : ℚ) < (w : ℚ) := by exact_mod_cast (by omega : 0 < w)
  have hxw : (x : ℚ) + 1 ≤ (w : ℚ) := by exact_mod_cast hx
  have hfl : ⌊((x : ℚ) + 1 / 2) / (w : ℚ)⌋ = 0 := by
    rw [Int.floor_eq_iff]
    constructor
    · simp only [Int.cast_zero]
      apply div_nonneg
      · positivity
      · exact hw.le
    · simp only [Int.cast_zero, zero_add]
      rw [div_lt_one hw]
      linarith
  rw [hfl]
  field_simp
  ring

/-! ## The layout computed by `Resize` -/

theorem sizeT_of_lt (n : Nat) (h : n < 2 ^ 64) : sizeT n = n := Nat.mod_eq_of_lt h

theorem mPixelSize_pos (t : RenderTarget) : 1 ≤ t.mPixelSize := by
  unfold RenderTarget.mPixelSize RenderTarget.mChannelSize
  cases t.mFormat <;> simp [STRIDES, CHANNELS]

theorem mPixelSize_le (t : RenderTarget) : t.mPixelSize ≤ 12 := by
  unfold RenderTarget.mPixelSize RenderTarget.mChannelSize
  cases t.mFormat <;> simp [STRIDES, CHANNELS]

theorem mPixelSize_eq (t : RenderTarget) :
    t.mPixelSize = STRIDES t.mFormat * CHANNELS t.mFormat := rfl

theorem levelDim_lt (d mip : Nat) (hd : d < 65536) : levelDim d mip < 65536 := by
  have := levelDim_le d mip
  omega

theorem pixelsBefore_mono (w h : Nat) {j k : Nat} (hjk : j ≤ k) :
    pixelsBefore w h j ≤ pixelsBefore w h k := by
  induction k with
  | zero =>
    have : j = 0 := by omega
    subst this
    exact le_refl _
  | succ k ih =>
    by_cases hj : j = k + 1
    · subst hj
      exact le_refl _
    · have := ih (by omega)
      simp only [pixelsBefore]
      omega

theorem pixelsBefore_le (w h : Nat) (hw : w < 65536) (hh : h < 65536) (k : Nat) :
    pixelsBefore w h k ≤ k * (65535 * 65535) := by
  induction k with
  | zero => simp [pixelsBefore]
  | succ k ih =>
    have h1 : levelDim w k ≤ 65535 := by have := levelDim_lt w k hw; omega
    have h2 : levelDim h k ≤ 65535 := by have := levelDim_lt h k hh; omega
    have h3 : levelDim w k * levelDim h k ≤ 65535 * 65535 := Nat.mul_le_mul h1 h2
    simp only [pixelsBefore]
    rw [Nat.succ_mul]
    omega

theorem layout_lt (ps w h k : Nat) (hps : ps ≤ 12) (hw : w < 65536) (hh : h < 65536)
    (hk : k ≤ 256) : ps * pixelsBefore w h k < 2 ^ 64 := by
  have h1 := pixelsBefore_le w h hw hh k
  have h2 : k * (65535 * 65535) ≤ 256 * (65535 * 65535) := Nat.mul_le_mul_right _ hk
  have h3 : ps * pixelsBefore w h k ≤ 12 * (256 * (65535 * 65535)) :=
    Nat.mul_le_mul hps (le_trans h1 h2)
  have h4 : 12 * (256 * (65535 * 65535)) < 2 ^ 64 := by norm_num
  omega

theorem pixelsBefore_pos (w h k : Nat) (hk : 1 ≤ k) : 1 ≤ pixelsBefore w h k := by
  have h1 := pixelsBefore_mono w h hk
  have h2 : 1 ≤ pixelsBefore w h 1 := by
    simp only [pixelsBefore, zero_add]
    exact Nat.mul_pos (levelDim_pos w 0) (levelDim_pos h 0)
  omega

theorem resizeLoop_spec (ps w h : Nat) (hps : ps ≤ 12) (hw : w < 65536) (hh : h < 65536) :
    ∀ (n j : Nat) (s : ResizeLoop), j + n < 256 →
      s.width = levelDim w j → s.height = levelDim h j →
      s.mSize = ps * pixelsBefore w h (j + 1) →
      (∀ i, i ≤ j → s.mMipOffsets i = ps * pixelsBefore w h i) →
      (resizeLoop ps n (j + 1) s).mSize = ps * pixelsBefore w h (j + n + 1) ∧
      ∀ i, i ≤ j + n → (resizeLoop ps n (j + 1) s).mMipOffsets i = ps * pixelsBefore w h i := by
  intro n
  induction n with
  | zero =>
    intro j s _ _ _ hs ho
    exact ⟨hs, ho⟩
  | succ n ih =>
    intro j s hj hsw hsh hs ho
    have hstep := ih (j + 1) (resizeStep ps (j + 1) s) (by omega)
      (by simp only [resizeStep, hsw, levelDim_succ])
      (by simp only [resizeStep, hsh, levelDim_succ])
      (by
        simp only [resizeStep, hsw, hsh, ← levelDim_succ, hs]
        have e : ps * pixelsBefore w h (j + 1) + ps * levelDim w (j + 1) * levelDim h (j + 1)
            = ps * pixelsBefore w h (j + 1 + 1) := by
          simp only [pixelsBefore]
          ring
        rw [e]
        exact sizeT_of_lt _ (layout_lt ps w h _ hps hw hh (by omega)))
      (by
        intro i hi
        simp only [resizeStep]
        by_cases hij : i = j + 1
        · subst hij
          simp [hs]
        · rw [Function.update_noteq hij]
          exact ho i (by omega))
    simp only [resizeLoop]
    have e : j + (n + 1) = j + 1 + n := by omega
    rw [e]
    exact hstep

theorem Resize_fst (t : RenderTarget) (w h mips : Nat) (ok : Bool) :
    (t.Resize w h mips ok).1 = (decide (sizeT (t.mPixelSize * w * h) ≠ 0) && ok) := by
  unfold RenderTarget.Resize
  by_cases hz : sizeT (t.mPixelSize * w * h) = 0
  · simp [hz]
  · cases ok <;> simp [hz]

theorem base_size (t : RenderTarget) (w h : Nat) (hw : w < 65536) (hh : h < 65536) :
    sizeT (t.mPixelSize * w * h) = t.mPixelSize * w * h := by
  apply sizeT_of_lt
  have h1 : t.mPixelSize * w ≤ 12 * 65535 := Nat.mul_le_mul (mPixelSize_le t) (by omega)
  have h2 : t.mPixelSize * w * h ≤ 12 * 65535 * 65535 := Nat.mul_le_mul h1 (by omega)
  have h3 : 12 * 65535 * 65535 < 2 ^ 64 := by norm_num
  omega

theorem base_size_eq_zero (t : RenderTarget) (w h : Nat) (hw : w < 65536) (hh : h < 65536) :
    sizeT (t.mPixelSize * w * h) = 0 ↔ w = 0 ∨ h = 0 := by
  rw [base_size t w h hw hh]
  have := mPixelSize_pos t
  constructor
  · intro h0
    rcases Nat.mul_eq_zero.mp h0 with h1 | h1
    · rcases Nat.mul_eq_zero.mp h1 with h2 | h2
      · omega
      · exact Or.inl h2
    · exact Or.inr h1
  · rintro (h0 | h0) <;> simp [h0]

/-- The fields of the target after `Resize` on a non-empty size. -/
theorem Resize_fields (t : RenderTarget) (w h mips : Nat) (ok : Bool)
    (hw1 : 1 ≤ w) (hw : w < 65536) (hh1 : 1 ≤ h) (hh : h < 65536) (hm : mips < 256) :
    (t.Resize w h mips ok).2.mWidth = w ∧ (t.Resize w h mips ok).2.mHeight = h ∧
    (t.Resize w h mips ok).2.mMips = mips ∧ (t.Resize w h mips ok).2.mFormat = t.mFormat ∧
    (t.Resize w h mips ok).2.mSize = t.mPixelSize * pixelsBefore w h (max 1 mips) ∧
    (∀ k, k < max 1 mips →
      (t.Resize w h mips ok).2.mMipOffsets k = t.mPixelSize * pixelsBefore w h k) ∧
    (t.Resize w h mips ok).2.mpBuffer =
      if ok then some (List.replicate (t.mPixelSize * pixelsBefore w h (max 1 mips))
        (MemVal.byte 0)) else none := by
  have hz : sizeT (t.mPixelSize * w * h) ≠ 0 := by
    rw [Ne, base_size_eq_zero t w h hw hh]; omega
  have hloop := resizeLoop_spec t.mPixelSize w h (mPixelSize_le t) hw hh (mips - 1) 0
    ⟨w, h, sizeT (t.mPixelSize * w * h), Function.update t.mMipOffsets 0 0⟩ (by omega)
    (by simp [levelDim_zero w hw1]) (by simp [levelDim_zero h hh1])
    (by
      simp only [pixelsBefore, zero_add, levelDim_zero w hw1, levelDim_zero h hh1]
      rw [base_size t w h hw hh]; ring)
    (by
      intro i hi
      have : i = 0 := by omega
      subst this
      simp [pixelsBefore])
  have e : 0 + (mips - 1) + 1 = max 1 mips := by omega
  simp only [zero_add] at hloop
  have e2 : mips - 1 + 1 = max 1 mips := by omega
  rw [e2] at hloop
  obtain ⟨hsz, hoff⟩ := hloop
  unfold RenderTarget.Resize
  rw [if_neg hz]
  cases ok
  · refine ⟨rfl, rfl, rfl, rfl, hsz, ?_, rfl⟩
    intro k hk
    exact hoff k (by omega)
  · refine ⟨rfl, rfl, rfl, rfl, hsz, ?_, ?_⟩
    · intro k hk
      exact hoff k (by omega)
    · show some (List.replicate _ (MemVal.byte 0)) = _
      rw [hsz]
      rfl

theorem Resize_layout (t : RenderTarget) (w h mips : Nat)
    (hw1 : 1 ≤ w) (hw : w < 65536) (hh1 : 1 ≤ h) (hh : h < 65536) (hm : mips < 256) :
    (t.Resize w h mips true).2.Layout := by
  obtain ⟨f1, f2, f3, f4, f5, f6, f7⟩ := Resize_fields t w h mips true hw1 hw hh1 hh hm
  have hps : (t.Resize w h mips true).2.mPixelSize = t.mPixelSize := by
    simp only [RenderTarget.mPixelSize, RenderTarget.mChannelSize, f4]
  constructor
  · rw [f7, f5]
    exact ⟨_, rfl, by simp⟩
  · omega
  · omega
  · omega
  · omega
  · omega
  · intro k hk
    rw [f1, f2, hps]
    exact f6 k (by omega)
  · rw [f1, f2, f3, hps, f5]

theorem Resize_invalid_of_zero (t : RenderTarget) (w h mips : Nat) (ok : Bool)
    (hw : w < 65536) (hh : h < 65536) (hz : w = 0 ∨ h = 0) :
    (t.Resize w h mips ok).2.IsValid = false := by
  have hz2 := (base_size_eq_zero t w h hw hh).mpr hz
  unfold RenderTarget.Resize
  rw [if_pos hz2]
  rfl

/-! ## The accessors on a laid-out target -/

theorem RenderTarget.Layout.isValid {t : RenderTarget} (hl : t.Layout) : t.IsValid = true := by
  obtain ⟨buf, hb, _⟩ := hl.buffer
  have h1 := pixelsBefore_pos t.mWidth t.mHeight (max 1 t.mMips) (le_max_left _ _)
  have h2 : 1 ≤ t.mSize := by
    rw [hl.size]
    exact Nat.mul_pos (mPixelSize_pos t) h1
  simp [RenderTarget.IsValid, hb]
  omega

theorem pixelIndex_lt (w h mip x y : Nat) (hx : x < levelDim w mip) (hy : y < levelDim h mip) :
    pixelIndex w h mip x y < pixelsBefore w h (mip + 1) := by
  have h1 : (y + 1) * levelDim w mip ≤ levelDim h mip * levelDim w mip :=
    Nat.mul_le_mul_right _ hy
  have h2 : levelDim h mip * levelDim w mip = levelDim w mip * levelDim h mip := Nat.mul_comm _ _
  have h3 : (y + 1) * levelDim w mip = y * levelDim w mip + levelDim w mip := Nat.succ_mul _ _
  simp only [pixelIndex, pixelsBefore]
  omega

theorem pixelIndex_ge (w h mip x y : Nat) : pixelsBefore w h mip ≤ pixelIndex w h mip x y := by
  simp only [pixelIndex]
  omega

theorem pixelIndex_ne (w h mip x y mip2 x2 y2 : Nat)
    (hx : x < levelDim w mip) (hy : y < levelDim h mip)
    (hx2 : x2 < levelDim w mip2) (hy2 : y2 < levelDim h mip2)
    (hne : ¬(mip = mip2 ∧ x = x2 ∧ y = y2)) :
    pixelIndex w h mip x y ≠ pixelIndex w h mip2 x2 y2 := by
  rcases Nat.lt_trichotomy mip mip2 with hlt | heq | hgt
  · have h1 := pixelIndex_lt w h mip x y hx hy
    have h2 := pixelsBefore_mono w h (show mip + 1 ≤ mip2 by omega)
    have h3 := pixelIndex_ge w h mip2 x2 y2
    omega
  · subst heq
    simp only [pixelIndex]
    rcases Nat.lt_trichotomy y y2 with hylt | hyeq | hygt
    · have h1 : (y + 1) * levelDim w mip ≤ y2 * levelDim w mip := Nat.mul_le_mul_right _ hylt
      have h3 : (y + 1) * levelDim w mip = y * levelDim w mip + levelDim w mip :=
        Nat.succ_mul _ _
      omega
    · subst hyeq
      have : x ≠ x2 := fun hxe => hne ⟨rfl, hxe, rfl⟩
      omega
    · have h1 : (y2 + 1) * levelDim w mip ≤ y * levelDim w mip := Nat.mul_le_mul_right _ hygt
      have h3 : (y2 + 1) * levelDim w mip = y2 * levelDim w mip + levelDim w mip :=
        Nat.succ_mul _ _
      omega
  · have h1 := pixelIndex_lt w h mip2 x2 y2 hx2 hy2
    have h2 := pixelsBefore_mono w h (show mip2 + 1 ≤ mip by omega)
    have h3 := pixelIndex_ge w h mip x y
    omega

/-- On a laid-out target the offset of an in-range pixel is its index times the pixel size, is
not wrapped, and the whole pixel lies below `mSize`. -/
theorem RenderTarget.Layout.pixelOffset_eq {t : RenderTarget} (hl : t.Layout) (x y mip : Nat)
    (hm : mip < t.mMips) (hx : x < levelDim t.mWidth mip) (hy : y < levelDim t.mHeight mip) :
    t.pixelOffset x y mip = t.mPixelSize * pixelIndex t.mWidth t.mHeight mip x y ∧
    t.mPixelSize * pixelIndex t.mWidth t.mHeight mip x y + t.mPixelSize ≤ t.mSize := by
  have hidx := pixelIndex_lt t.mWidth t.mHeight mip x y hx hy
  have hmono := pixelsBefore_mono t.mWidth t.mHeight (show mip + 1 ≤ max 1 t.mMips by omega)
  have hle : t.mPixelSize * (pixelIndex t.mWidth t.mHeight mip x y + 1) ≤ t.mSize := by
    rw [hl.size]
    exact Nat.mul_le_mul_left _ (by omega)
  have hlt : t.mSize < 2 ^ 64 := by
    rw [hl.size]
    exact layout_lt _ _ _ _ (mPixelSize_le t) hl.width_lt hl.height_lt
      (by have := hl.mips_lt; omega)
  rw [Nat.mul_add, Nat.mul_one] at hle
  have e : t.mMipOffsets mip + (y * levelDim t.mWidth mip + x) * t.mPixelSize
      = t.mPixelSize * pixelIndex t.mWidth t.mHeight mip x y := by
    rw [hl.offsets mip hm]
    simp only [pixelIndex]
    ring
  refine ⟨?_, hle⟩
  unfold RenderTarget.pixelOffset
  rw [e]
  have := mPixelSize_pos t
  exact sizeT_of_lt _ (by omega)

theorem RenderTarget.Layout.GetPixel_eq {t : RenderTarget} (hl : t.Layout) (buf : List MemVal)
    (hb : t.mpBuffer = some buf) (x y mip : Nat)
    (hm : mip < t.mMips) (hx : x < levelDim t.mWidth mip) (hy : y < levelDim t.mHeight mip) :
    t.GetPixel x y mip = readPixel t.mFormat (STRIDES t.mFormat) buf
      (t.mPixelSize * pixelIndex t.mWidth t.mHeight mip x y) := by
  obtain ⟨ho, hle⟩ := hl.pixelOffset_eq x y mip hm hx hy
  have hps := mPixelSize_pos t
  unfold RenderTarget.GetPixel
  rw [if_neg (by simp [hl.isValid]; omega)]
  simp only
  rw [if_neg (by omega), if_neg (by omega), hb, ho]
  rfl

theorem RenderTarget.Layout.SetPixel_eq {t : RenderTarget} (hl : t.Layout) (buf : List MemVal)
    (hb : t.mpBuffer = some buf) (x y mip : Nat) (p : Pixel)
    (hm : mip < t.mMips) (hx : x < levelDim t.mWidth mip) (hy : y < levelDim t.mHeight mip) :
    t.SetPixel x y p mip = { t with mpBuffer := some (writePixel t.mFormat (STRIDES t.mFormat) buf
      (t.mPixelSize * pixelIndex t.mWidth t.mHeight mip x y) p) } := by
  obtain ⟨ho, hle⟩ := hl.pixelOffset_eq x y mip hm hx hy
  have hps := mPixelSize_pos t
  unfold RenderTarget.SetPixel
  rw [if_neg (by simp [hl.isValid]; omega)]
  simp only
  rw [if_neg (by omega), if_neg (by omega), hb, ho]
  rfl

/-- `SetPixel` assigns no field but the contents of the buffer. -/
theorem SetPixel_fields (t : RenderTarget) (x y mip : Nat) (p : Pixel) :
    (t.SetPixel x y p mip).mFormat = t.mFormat ∧ (t.SetPixel x y p mip).mSize = t.mSize ∧
    (t.SetPixel x y p mip).mWidth = t.mWidth ∧ (t.SetPixel x y p mip).mHeight = t.mHeight ∧
    (t.SetPixel x y p mip).mMips = t.mMips ∧
    (t.SetPixel x y p mip).mMipOffsets = t.mMipOffsets := by
  unfold RenderTarget.SetPixel
  split
  · exact ⟨rfl, rfl, rfl, rfl, rfl, rfl⟩
  · simp only
    split
    · exact ⟨rfl, rfl, rfl, rfl, rfl, rfl⟩
    · split
      · exact ⟨rfl, rfl, rfl, rfl, rfl, rfl⟩
      · split <;> exact ⟨rfl, rfl, rfl, rfl, rfl, rfl⟩

theorem RenderTarget.Layout.of_buffer {t : RenderTarget} (hl : t.Layout) (buf : List MemVal)
    (hlen : buf.length = t.mSize) : ({ t with mpBuffer := some buf } : RenderTarget).Layout :=
  ⟨⟨buf, rfl, hlen⟩, hl.width_pos, hl.width_lt, hl.height_pos, hl.height_lt, hl.mips_lt,
    hl.offsets, hl.size⟩

theorem RenderTarget.Layout.SetPixel {t : RenderTarget} (hl : t.Layout) (x y mip : Nat) (p : Pixel) :
    (t.SetPixel x y p mip).Layout := by
  by_cases hg : mip < t.mMips ∧ x < levelDim t.mWidth mip ∧ y < levelDim t.mHeight mip
  · obtain ⟨buf, hb, hlen⟩ := hl.buffer
    rw [hl.SetPixel_eq buf hb x y mip p hg.1 hg.2.1 hg.2.2]
    exact hl.of_buffer _ (by rw [length_writePixel]; exact hlen)
  · rw [SetPixel_of_guard t x y mip p (by omega)]
    exact hl

/-- What `GetPixel` returns at the pixel `SetPixel` has just stored. -/
theorem RenderTarget.Layout.GetPixel_SetPixel_same {t : RenderTarget} (hl : t.Layout) (x y mip : Nat)
    (p : Pixel) (hm : mip < t.mMips) (hx : x < levelDim t.mWidth mip)
    (hy : y < levelDim t.mHeight mip) :
    (t.SetPixel x y p mip).GetPixel x y mip = storedPixel t.mFormat p := by
  obtain ⟨buf, hb, hlen⟩ := hl.buffer
  obtain ⟨_, hle⟩ := hl.pixelOffset_eq x y mip hm hx hy
  have hl2 := hl.SetPixel x y mip p
  rw [hl.SetPixel_eq buf hb x y mip p hm hx hy] at hl2 ⊢
  rw [hl2.GetPixel_eq _ rfl x y mip hm hx hy]
  exact readPixel_writePixel_same _ _ _ _ (by rw [hlen, ← mPixelSize_eq]; exact hle)

/-- `SetPixel` leaves every other pixel as it was. -/
theorem RenderTarget.Layout.GetPixel_SetPixel_of_ne {t : RenderTarget} (hl : t.Layout)
    (x y mip x2 y2 mip2 : Nat) (p : Pixel) (hne : ¬(mip = mip2 ∧ x = x2 ∧ y = y2)) :
    (t.SetPixel x2 y2 p mip2).GetPixel x y mip = t.GetPixel x y mip := by
  by_cases hg2 : mip2 < t.mMips ∧ x2 < levelDim t.mWidth mip2 ∧ y2 < levelDim t.mHeight mip2
  swap
  · rw [SetPixel_of_guard t x2 y2 mip2 p (by omega)]
  by_cases hg : mip < t.mMips ∧ x < levelDim t.mWidth mip ∧ y < levelDim t.mHeight mip
  swap
  · obtain ⟨_, _, f3, f4, f5, _⟩ := SetPixel_fields t x2 y2 mip2 p
    rw [GetPixel_of_guard t x y mip (by omega),
      GetPixel_of_guard _ x y mip (by rw [f3, f4, f5]; omega)]
  obtain ⟨buf, hb, hlen⟩ := hl.buffer
  have hl2 := hl.SetPixel x2 y2 mip2 p
  rw [hl.SetPixel_eq buf hb x2 y2 mip2 p hg2.1 hg2.2.1 hg2.2.2] at hl2 ⊢
  rw [hl2.GetPixel_eq _ rfl x y mip hg.1 hg.2.1 hg.2.2,
    hl.GetPixel_eq buf hb x y mip hg.1 hg.2.1 hg.2.2]
  have hidx := pixelIndex_ne t.mWidth t.mHeight mip x y mip2 x2 y2 hg.2.1 hg.2.2 hg2.2.1
    hg2.2.2 hne
  apply readPixel_writePixel_of_disjoint
  rw [← mPixelSize_eq]
  show t.mPixelSize * _ + t.mPixelSize ≤ t.mPixelSize * _ ∨
    t.mPixelSize * _ + t.mPixelSize ≤ t.mPixelSize * _
  rcases Nat.lt_or_gt_of_ne hidx with hlt | hgt
  · left
    calc t.mPixelSize * pixelIndex t.mWidth t.mHeight mip x y + t.mPixelSize
        = t.mPixelSize * (pixelIndex t.mWidth t.mHeight mip x y + 1) := by ring
      _ ≤ t.mPixelSize * pixelIndex t.mWidth t.mHeight mip2 x2 y2 :=
        Nat.mul_le_mul_left _ hlt
  · right
    calc t.mPixelSize * pixelIndex t.mWidth t.mHeight mip2 x2 y2 + t.mPixelSize
        = t.mPixelSize * (pixelIndex t.mWidth t.mHeight mip2 x2 y2 + 1) := by ring
      _ ≤ t.mPixelSize * pixelIndex t.mWidth t.mHeight mip x y :=
        Nat.mul_le_mul_left _ hgt

/-! ## Sampling between texel centres -/

theorem centre_coord_double (x w : Nat) (hx : x < w) :
    (((x : ℚ) + 1 / 2) / (w : ℚ) - ((⌊((x : ℚ) + 1 / 2) / (w : ℚ)⌋ : ℤ) : ℚ)) * ((2 * w : Nat) : ℚ)
      - 1 / 2 = ((2 * x : Nat) : ℚ) + 1 / 2 := by
  have h := centre_coord x w hx
  have hw : (0 : ℚ) < (w : ℚ) := by exact_mod_cast (by omega : 0 < w)
  push_cast
  linear_combination 2 * h

theorem floor_nat_add_half (n : Nat) : ⌊((n : ℚ) + 1 / 2)⌋ = (n : ℤ) := by
  rw [Int.floor_eq_iff]
  constructor
  · push_cast; linarith
  · push_cast; linarith

theorem blend_half (c00 c10 c01 c11 : ℚ) :
    blend c00 c10 c01 c11 (1 / 2) (1 - 1 / 2) (1 / 2) (1 - 1 / 2) = (c00 + c10 + c01 + c11) / 4 := by
  unfold blend
  ring

/-- Sampling a level at the centre of a pixel of the next level, when the level has twice the
extent of the next one in both axes, yields the mean of the four pixels below that centre. -/
theorem sample_between_four (t : RenderTarget) (x y w h mip : Nat)
    (hW : t.mWidth < 65536) (hH : t.mHeight < 65536)
    (hw : levelDim t.mWidth mip = 2 * w) (hh : levelDim t.mHeight mip = 2 * h)
    (hx : x < w) (hy : y < h) :
    t.SampleBilinear (((x : ℚ) + 1 / 2) / (w : ℚ)) (((y : ℚ) + 1 / 2) / (h : ℚ)) mip =
      mean4 (t.GetPixel (2 * x) (2 * y) mip) (t.GetPixel (2 * x + 1) (2 * y) mip)
        (t.GetPixel (2 * x) (2 * y + 1) mip) (t.GetPixel (2 * x + 1) (2 * y + 1) mip) := by
  have hwle := levelDim_le t.mWidth mip
  have hhle := levelDim_le t.mHeight mip
  have e1 : ((⌊((2 * x : Nat) : ℚ) + 1 / 2⌋ : ℤ) : ℚ) = ((2 * x : Nat) : ℚ) := by
    rw [floor_nat_add_half]; simp
  have e2 : ((⌊((2 * y : Nat) : ℚ) + 1 / 2⌋ : ℤ) : ℚ) = ((2 * y : Nat) : ℚ) := by
    rw [floor_nat_add_half]; simp
  unfold RenderTarget.SampleBilinear
  simp only [hw, hh, centre_coord_double x w hx, centre_coord_double y h hy, e1, e2,
    add_sub_cancel_left, blend_half, floor_nat_add_half, add_zero]
  have i1 : intmod ((2 * x : Nat) : ℤ) ((2 * w : Nat) : ℤ) = ((2 * x : Nat) : ℤ) :=
    intmod_of_lt _ _ (by omega) (by omega)
  have i2 : intmod (((2 * x : Nat) : ℤ) + 1) ((2 * w : Nat) : ℤ) = ((2 * x + 1 : Nat) : ℤ) := by
    rw [intmod_of_lt _ _ (by omega) (by omega)]; push_cast; ring
  have i3 : intmod ((2 * y : Nat) : ℤ) ((2 * h : Nat) : ℤ) = ((2 * y : Nat) : ℤ) :=
    intmod_of_lt _ _ (by omega) (by omega)
  have i4 : intmod (((2 * y : Nat) : ℤ) + 1) ((2 * h : Nat) : ℤ) = ((2 * y + 1 : Nat) : ℤ) := by
    rw [intmod_of_lt _ _ (by omega) (by omega)]; push_cast; ring
  rw [i1, i2, i3, i4, toUInt16_natCast _ (by omega), toUInt16_natCast _ (by omega),
    toUInt16_natCast _ (by omega), toUInt16_natCast _ (by omega)]
  have f : ∀ n : Nat, ((n : ℚ) + 1 / 2 - (((n : ℤ)) : ℚ)) = 1 / 2 := by
    intro n; simp
  simp only [f, blend_half]
  rfl

/-- The sampler reads the target only through the extents and the pixels of the sampled level. -/
theorem SampleBilinear_congr (t s : RenderTarget) (u v : ℚ) (mip : Nat)
    (hW : t.mWidth = s.mWidth) (hH : t.mHeight = s.mHeight)
    (hp : ∀ x y, t.GetPixel x y mip = s.GetPixel x y mip) :
    t.SampleBilinear u v mip = s.SampleBilinear u v mip := by
  unfold RenderTarget.SampleBilinear
  simp only [hW, hH, hp]

/-! ## The pixel loops of `GenerateMIPs` -/

theorem RenderTarget.SameFields.refl (t : RenderTarget) : t.SameFields t := ⟨rfl, rfl, rfl, rfl, rfl, rfl⟩

theorem RenderTarget.SameFields.trans {t s r : RenderTarget} (h1 : t.SameFields s) (h2 : s.SameFields r) :
    t.SameFields r := by
  unfold RenderTarget.SameFields at h1 h2 ⊢
  refine ⟨h1.1.trans h2.1, h1.2.1.trans h2.2.1, h1.2.2.1.trans h2.2.2.1, ?_, ?_, ?_⟩
  · exact h1.2.2.2.1.trans h2.2.2.2.1
  · exact h1.2.2.2.2.1.trans h2.2.2.2.2.1
  · exact h1.2.2.2.2.2.trans h2.2.2.2.2.2

theorem SetPixel_sameFields (t : RenderTarget) (x y mip : Nat) (p : Pixel) :
    (t.SetPixel x y p mip).SameFields t := SetPixel_fields t x y mip p

/-- One pass of the loop body keeps the layout and touches the pixel `(x, y)` of level `m`
only. -/
theorem genPixel_frame (w h m : Nat) (t : RenderTarget) (hl : t.Layout) (x y : Nat) :
    (genPixel w h m t x y).Layout ∧ (genPixel w h m t x y).SameFields t ∧
    ∀ x2 y2 mip, ¬(mip = m ∧ x2 = x ∧ y2 = y) →
      (genPixel w h m t x y).GetPixel x2 y2 mip = t.GetPixel x2 y2 mip :=
  ⟨hl.SetPixel _ _ _ _, SetPixel_sameFields _ _ _ _ _,
    fun x2 y2 mip hne => hl.GetPixel_SetPixel_of_ne x2 y2 mip x y m _ hne⟩

theorem genPixel_same (w h m : Nat) (t : RenderTarget) (hl : t.Layout) (x y : Nat)
    (hm : m < t.mMips) (hx : x < levelDim t.mWidth m) (hy : y < levelDim t.mHeight m) :
    (genPixel w h m t x y).GetPixel x y m = storedPixel t.mFormat
      (t.SampleBilinear (((x : ℚ) + 1 / 2) / w) (((y : ℚ) + 1 / 2) / h) (m - 1)) :=
  hl.GetPixel_SetPixel_same x y m _ hm hx hy

/-- State of a row of `GenerateMIPs` after its first `n` columns. -/
theorem genRow_prefix (w h m : Nat) (t : RenderTarget) (hl : t.Layout) (y : Nat) (n : Nat) :
    ((List.range n).foldl (fun t x => genPixel w h m t x y) t).Layout ∧
    ((List.range n).foldl (fun t x => genPixel w h m t x y) t).SameFields t ∧
    (∀ x2 y2 mip, (mip ≠ m ∨ y2 ≠ y ∨ n ≤ x2) →
      ((List.range n).foldl (fun t x => genPixel w h m t x y) t).GetPixel x2 y2 mip
        = t.GetPixel x2 y2 mip) ∧
    (1 ≤ m → m < t.mMips → y < levelDim t.mHeight m →
      ∀ x2, x2 < n → x2 < levelDim t.mWidth m →
        ((List.range n).foldl (fun t x => genPixel w h m t x y) t).GetPixel x2 y m
          = storedPixel t.mFormat
            (t.SampleBilinear (((x2 : ℚ) + 1 / 2) / w) (((y : ℚ) + 1 / 2) / h) (m - 1))) := by
  induction n with
  | zero =>
    refine ⟨hl, RenderTarget.SameFields.refl t, fun _ _ _ _ => rfl, ?_⟩
    intro _ _ _ x2 hx2
    omega
  | succ n ih =>
    obtain ⟨il, isf, ifr, idone⟩ := ih
    rw [List.range_succ, List.foldl_append, List.foldl_cons, List.foldl_nil]
    obtain ⟨pl, psf, pfr⟩ := genPixel_frame w h m _ il n y
    refine ⟨pl, psf.trans isf, ?_, ?_⟩
    · intro x2 y2 mip hc
      rw [pfr x2 y2 mip (by omega), ifr x2 y2 mip (by omega)]
    · intro hm1 hm hy x2 hx2 hx2w
      by_cases hx2n : x2 = n
      · subst hx2n
        obtain ⟨s1, _, s3, s4, s5, _⟩ := isf
        rw [genPixel_same w h m _ il x2 y (by rw [s5]; exact hm) (by rw [s3]; exact hx2w)
          (by rw [s4]; exact hy), s1]
        congr 1
        exact SampleBilinear_congr _ _ _ _ _ s3 s4
          (fun a b => ifr a b (m - 1) (Or.inl (by omega)))
      · rw [pfr x2 y m (by omega)]
        exact idone hm1 hm hy x2 (by omega) hx2w

/-- One row of `GenerateMIPs`. -/
theorem genRow_spec (w h m : Nat) (t : RenderTarget) (hl : t.Layout) (y : Nat) :
    (genRow w h m t y).Layout ∧ (genRow w h m t y).SameFields t ∧
    (∀ x2 y2 mip, (mip ≠ m ∨ y2 ≠ y) →
      (genRow w h m t y).GetPixel x2 y2 mip = t.GetPixel x2 y2 mip) ∧
    (1 ≤ m → m < t.mMips → y < levelDim t.mHeight m →
      ∀ x2, x2 < w → x2 < levelDim t.mWidth m →
        (genRow w h m t y).GetPixel x2 y m = storedPixel t.mFormat
          (t.SampleBilinear (((x2 : ℚ) + 1 / 2) / w) (((y : ℚ) + 1 / 2) / h) (m - 1))) := by
  obtain ⟨a, b, c, d⟩ := genRow_prefix w h m t hl y w
  refine ⟨a, b, fun x2 y2 mip hc => c x2 y2 mip (by omega), d⟩

/-- State of a level of `GenerateMIPs` after its first `n` rows. -/
theorem genLevel_prefix (w h m : Nat) (t : RenderTarget) (hl : t.Layout) (n : Nat) :
    ((List.range n).foldl (fun t y => genRow w h m t y) t).Layout ∧
    ((List.range n).foldl (fun t y => genRow w h m t y) t).SameFields t ∧
    (∀ x2 y2 mip, (mip ≠ m ∨ n ≤ y2) →
      ((List.range n).foldl (fun t y => genRow w h m t y) t).GetPixel x2 y2 mip
        = t.GetPixel x2 y2 mip) ∧
    (1 ≤ m → m < t.mMips → w ≤ levelDim t.mWidth m →
      ∀ x2 y2, x2 < w → y2 < n → y2 < levelDim t.mHeight m →
        ((List.range n).foldl (fun t y => genRow w h m t y) t).GetPixel x2 y2 m
          = storedPixel t.mFormat
            (t.SampleBilinear (((x2 : ℚ) + 1 / 2) / w) (((y2 : ℚ) + 1 / 2) / h) (m - 1))) := by
  induction n with
  | zero =>
    refine ⟨hl, RenderTarget.SameFields.refl t, fun _ _ _ _ => rfl, ?_⟩
    intro _ _ _ x2 y2 _ hy2
    omega
  | succ n ih =>
    obtain ⟨il, isf, ifr, idone⟩ := ih
    rw [List.range_succ, List.foldl_append, List.foldl_cons, List.foldl_nil]
    obtain ⟨rl, rsf, rfr, rdone⟩ := genRow_spec w h m _ il n
    refine ⟨rl, rsf.trans isf, ?_, ?_⟩
    · intro x2 y2 mip hc
      rw [rfr x2 y2 mip (by omega), ifr x2 y2 mip (by omega)]
    · intro hm1 hm hw x2 y2 hx2 hy2 hy2h
      obtain ⟨s1, _, s3, s4, s5, _⟩ := isf
      by_cases hy2n : y2 = n
      · subst hy2n
        rw [rdone hm1 (by rw [s5]; exact hm) (by rw [s4]; exact hy2h) x2 hx2
          (by rw [s3]; omega), s1]
        congr 1
        exact SampleBilinear_congr _ _ _ _ _ s3 s4
          (fun a b => ifr a b (m - 1) (Or.inl (by omega)))
      · rw [rfr x2 y2 m (by omega)]
        exact idone hm1 hm hw x2 y2 hx2 (by omega) hy2h

/-- One level of `GenerateMIPs`: the layout is kept, the other levels are untouched, and every
pixel of the level holds the stored sample of the level before. -/
theorem genLevel_spec (w h m : Nat) (t : RenderTarget) (hl : t.Layout) :
    (genLevel w h m t).Layout ∧ (genLevel w h m t).SameFields t ∧
    (∀ x2 y2 mip, mip ≠ m → (genLevel w h m t).GetPixel x2 y2 mip = t.GetPixel x2 y2 mip) ∧
    (1 ≤ m → m < t.mMips → w = levelDim t.mWidth m → h = levelDim t.mHeight m →
      ∀ x2 y2, x2 < w → y2 < h →
        (genLevel w h m t).GetPixel x2 y2 m = storedPixel t.mFormat
          (t.SampleBilinear (((x2 : ℚ) + 1 / 2) / w) (((y2 : ℚ) + 1 / 2) / h) (m - 1))) := by
  obtain ⟨a, b, c, d⟩ := genLevel_prefix w h m t hl h
  refine ⟨a, b, fun x2 y2 mip hne => c x2 y2 mip (Or.inl hne), ?_⟩
  intro hm1 hm hw hh x2 y2 hx2 hy2
  exact d hm1 hm (by omega) x2 y2 hx2 hy2 (by omega)

/-- The level loop of `GenerateMIPs` keeps the layout and leaves the levels below its first
counter untouched. -/
theorem genLoop_frame (n : Nat) : ∀ (mip w h : Nat) (t : RenderTarget), t.Layout →
    (genLoop n mip w h t).Layout ∧ (genLoop n mip w h t).SameFields t ∧
    ∀ x y lvl, lvl < mip → (genLoop n mip w h t).GetPixel x y lvl = t.GetPixel x y lvl := by
  induction n with
  | zero =>
    intro mip w h t hl
    exact ⟨hl, RenderTarget.SameFields.refl t, fun _ _ _ _ => rfl⟩
  | succ n ih =>
    intro mip w h t hl
    obtain ⟨a, b, c, _⟩ := genLevel_spec (halve w) (halve h) mip t hl
    obtain ⟨a2, b2, c2⟩ := ih (mip + 1) (halve w) (halve h) _ a
    simp only [genLoop]
    refine ⟨a2, b2.trans b, ?_⟩
    intro x y lvl hlvl
    rw [c2 x y lvl (by omega), c x y lvl (by omega)]

/-- The level loop run for `a + b` levels is the loop for `a` levels followed by the loop for
`b` levels. -/
theorem genLoop_add (a b : Nat) : ∀ (mip w h : Nat) (t : RenderTarget),
    genLoop (a + b) mip w h t =
      genLoop b (mip + a) (halve^[a] w) (halve^[a] h) (genLoop a mip w h t) := by
  induction a with
  | zero =>
    intro mip w h t
    simp [genLoop]
  | succ a ih =>
    intro mip w h t
    have e : a + 1 + b = (a + b) + 1 := by omega
    rw [e]
    simp only [genLoop, Function.iterate_succ, Function.comp]
    rw [ih]
    have e2 : mip + 1 + a = mip + (a + 1) := by omega
    rw [e2]

theorem halve_iterate (d : Nat) (hd : 1 ≤ d) (k : Nat) : halve^[k] d = levelDim d k := by
  induction k with
  | zero => simp [levelDim_zero d hd]
  | succ k ih => rw [Function.iterate_succ_apply', ih, levelDim_succ]

theorem Resize_layout_of_success (t : RenderTarget) (w h mips : Nat) (ok : Bool)
    (hw : w < 65536) (hh : h < 65536) (hm : mips < 256)
    (hok : (t.Resize w h mips ok).1 = true) : (t.Resize w h mips ok).2.Layout := by
  rw [Resize_fst] at hok
  simp only [Bool.and_eq_true, decide_eq_true_eq, Ne, base_size_eq_zero t w h hw hh] at hok
  obtain ⟨hz, rfl⟩ := hok
  exact Resize_layout t w h mips (by omega) hw (by omega) hh hm

theorem sample22_base :
    sample22.GetPixel 0 0 0 = ⟨1, 0, 0, 0⟩ ∧ sample22.GetPixel 1 0 0 = ⟨0, 1, 0, 0⟩ ∧
    sample22.GetPixel 0 1 0 = ⟨0, 0, 1, 0⟩ ∧ sample22.GetPixel 1 1 0 = ⟨1, 1, 1, 0⟩ := by
  have l0 := Resize_layout (emptyTarget .RGBFFF) 2 2 2 (by decide) (by decide) (by decide)
    (by decide) (by decide)
  have l1 := l0.SetPixel 0 0 0 ⟨1, 0, 0, 0⟩
  have l2 := l1.SetPixel 1 0 0 ⟨0, 1, 0, 0⟩
  have l3 := l2.SetPixel 0 1 0 ⟨0, 0, 1, 0⟩
  unfold sample22
  refine ⟨?_, ?_, ?_, ?_⟩
  · rw [l3.GetPixel_SetPixel_of_ne 0 0 0 1 1 0 _ (by decide),
      l2.GetPixel_SetPixel_of_ne 0 0 0 0 1 0 _ (by decide),
      l1.GetPixel_SetPixel_of_ne 0 0 0 1 0 0 _ (by decide),
      l0.GetPixel_SetPixel_same 0 0 0 _ (by decide) (by decide) (by decide)]
    rfl
  · rw [l3.GetPixel_SetPixel_of_ne 1 0 0 1 1 0 _ (by decide),
      l2.GetPixel_SetPixel_of_ne 1 0 0 0 1 0 _ (by decide),
      l1.GetPixel_SetPixel_same 1 0 0 _ (by decide) (by decide) (by decide)]
    rfl
  · rw [l3.GetPixel_SetPixel_of_ne 0 1 0 1 1 0 _ (by decide),
      l2.GetPixel_SetPixel_same 0 1 0 _ (by decide) (by decide) (by decide)]
    rfl
  · rw [l3.GetPixel_SetPixel_same 1 1 0 _ (by decide) (by decide) (by decide)]
    rfl

/-! ## Quantisation of the 8-bit formats -/

theorem toByte_of_unit (c : ℚ) (h0 : 0 ≤ c) (h1 : c ≤ 1) :
    ((toByte c : ℚ) ≤ c * 255) ∧ (c * 255 < (toByte c : ℚ) + 1) := by
  have hc : clampf (c * 255) 0 255 = c * 255 := by
    unfold clampf
    rw [if_neg (by linarith), if_neg (by linarith)]
  have hf0 : 0 ≤ ⌊c * 255⌋ := Int.floor_nonneg.mpr (by linarith)
  have hf1 : ⌊c * 255⌋ ≤ 255 := by
    have : ⌊c * 255⌋ ≤ ⌊(255 : ℚ)⌋ := Int.floor_mono (by linarith)
    simpa using this
  have hb : ((toByte c : ℕ) : ℤ) = ⌊c * 255⌋ := by
    unfold toByte
    rw [hc]
    omega
  have hq : (toByte c : ℚ) = ((⌊c * 255⌋ : ℤ) : ℚ) := by
    rw [← hb]; simp
  rw [hq]
  exact ⟨Int.floor_le _, Int.lt_floor_add_one _⟩

theorem quantised_close (c : ℚ) (h0 : 0 ≤ c) (h1 : c ≤ 1) :
    |(toByte c : ℚ) / 255 - c| ≤ 1 / 255 := by
  obtain ⟨a, b⟩ := toByte_of_unit c h0 h1
  rw [abs_le]
  constructor
  · rw [le_sub_iff_add_le, le_div_iff₀ (by norm_num)]
    linarith
  · rw [sub_le_iff_le_add, div_le_iff₀ (by norm_num)]
    linarith

/-! ## The claims -/

/-- C1. On a laid-out target (every target `Resize` has returned true on, also after any
`SetPixel`), for an in-range pixel of a level below `mMips`, `GetPixel` right after `SetPixel`
returns in every stored channel exactly the channel of `p` for the float formats, and a value
within 1/255 of it for the 8-bit formats when the channel of `p` lies in [0, 1]. -/
theorem set_then_get_roundtrip (t : RenderTarget) (hl : t.Layout) (x y mip : Nat) (p : Pixel)
    (hm : mip < t.mMips) (hx : x < levelDim t.mWidth mip) (hy : y < levelDim t.mHeight mip) :
    ∀ c ∈ storedChannels t.mFormat,
      (isFloat t.mFormat = true → c ((t.SetPixel x y p mip).GetPixel x y mip) = c p) ∧
      (isFloat t.mFormat = false → 0 ≤ c p → c p ≤ 1 →
        |c ((t.SetPixel x y p mip).GetPixel x y mip) - c p| ≤ 1 / 255) := by
  rw [hl.GetPixel_SetPixel_same x y mip p hm hx hy]
  generalize t.mFormat = f
  intro c hc
  cases f <;> simp only [storedChannels, List.mem_cons, List.mem_singleton, List.mem_nil_iff,
    or_false] at hc
  · subst hc
    exact ⟨fun h => by simp [isFloat] at h, fun _ h0 h1 => quantised_close _ h0 h1⟩
  · rcases hc with rfl | rfl <;>
      exact ⟨fun h => by simp [isFloat] at h, fun _ h0 h1 => quantised_close _ h0 h1⟩
  · rcases hc with rfl | rfl | rfl <;>
      exact ⟨fun h => by simp [isFloat] at h, fun _ h0 h1 => quantised_close _ h0 h1⟩
  · subst hc
    exact ⟨fun _ => rfl, fun h => by simp [isFloat] at h⟩
  · rcases hc with rfl | rfl <;> exact ⟨fun _ => rfl, fun h => by simp [isFloat] at h⟩
  · rcases hc with rfl | rfl | rfl <;> exact ⟨fun _ => rfl, fun h => by simp [isFloat] at h⟩

theorem sample443_layout : sample443.Layout :=
  Resize_layout _ 4 4 3 (by decide) (by decide) (by decide) (by decide) (by decide)

theorem set_then_get_roundtrip_witness :
    sample443.Layout ∧ 1 < sample443.mMips ∧ 1 < levelDim sample443.mWidth 1 ∧
      1 < levelDim sample443.mHeight 1 ∧
      |((sample443.SetPixel 1 1 ⟨1 / 2, 1 / 3, 1, 0⟩ 1).GetPixel 1 1 1).r - 1 / 2| ≤ 1 / 255 ∧
      |((sample443.SetPixel 1 1 ⟨1 / 2, 1 / 3, 1, 0⟩ 1).GetPixel 1 1 1).g - 1 / 3| ≤ 1 / 255 ∧
      |((sample443.SetPixel 1 1 ⟨1 / 2, 1 / 3, 1, 0⟩ 1).GetPixel 1 1 1).b - 1| ≤ 1 / 255 :=
  have h := set_then_get_roundtrip sample443 sample443_layout 1 1 1 ⟨1 / 2, 1 / 3, 1, 0⟩
    (by decide) (by decide) (by decide)
  have hf : isFloat sample443.mFormat = false := by decide
  ⟨sample443_layout, by decide, by decide, by decide,
    (h Pixel.r (List.mem_cons_self _ _)).2 hf (by norm_num) (by norm_num),
    (h Pixel.g (List.mem_cons_of_mem _ (List.mem_cons_self _ _))).2 hf (by norm_num)
      (by norm_num),
    (h Pixel.b (List.mem_cons_of_mem _ (List.mem_cons_of_mem _ (List.mem_cons_self _ _)))).2 hf
      (by norm_num) (by norm_num)⟩

/-- C2. For width and height in 1..65535 and a mip count in 1..255, after `Resize` the offset of
level 0 is 0, the offset of every later level is the offset of the level before plus the bytes of
that level, whose extents are the direct shifts `max 1 (width >> k)` of `GetPixel`, and `mSize`
is the offset of the last level plus its bytes; for (4, 4, 3) the offsets are 0, 16 and 20 pixel
sizes and `mSize` is 21 pixel sizes. This holds whether or not the allocation succeeds. -/
theorem resize_offsets (t : RenderTarget) (w h mips : Nat) (ok : Bool)
    (hw1 : 1 ≤ w) (hw : w < 65536) (hh1 : 1 ≤ h) (hh : h < 65536)
    (hm1 : 1 ≤ mips) (hm : mips < 256) :
    (t.Resize w h mips ok).2.mMipOffsets 0 = 0 ∧
    (∀ k, 1 ≤ k → k < mips →
      (t.Resize w h mips ok).2.mMipOffsets k = (t.Resize w h mips ok).2.mMipOffsets (k - 1) +
        (t.Resize w h mips ok).2.mPixelSize * max 1 (w >>> (k - 1)) * max 1 (h >>> (k - 1))) ∧
    (t.Resize w h mips ok).2.mSize = (t.Resize w h mips ok).2.mMipOffsets (mips - 1) +
      (t.Resize w h mips ok).2.mPixelSize * max 1 (w >>> (mips - 1)) *
        max 1 (h >>> (mips - 1)) ∧
    ((t.Resize 4 4 3 ok).2.mMipOffsets 0 = 0 ∧
      (t.Resize 4 4 3 ok).2.mMipOffsets 1 = 16 * (t.Resize 4 4 3 ok).2.mPixelSize ∧
      (t.Resize 4 4 3 ok).2.mMipOffsets 2 = 20 * (t.Resize 4 4 3 ok).2.mPixelSize ∧
      (t.Resize 4 4 3 ok).2.mSize = 21 * (t.Resize 4 4 3 ok).2.mPixelSize) := by
  have key : ∀ (w h mips : Nat), 1 ≤ w → w < 65536 → 1 ≤ h → h < 65536 → 1 ≤ mips →
      mips < 256 →
      (t.Resize w h mips ok).2.mPixelSize = t.mPixelSize ∧
      (t.Resize w h mips ok).2.mSize = t.mPixelSize * pixelsBefore w h mips ∧
      ∀ k, k < mips →
        (t.Resize w h mips ok).2.mMipOffsets k = t.mPixelSize * pixelsBefore w h k := by
    intro w h mips hw1 hw hh1 hh hm1 hm
    obtain ⟨_, _, _, f4, f5, f6, _⟩ := Resize_fields t w h mips ok hw1 hw hh1 hh hm
    have e : max 1 mips = mips := by omega
    rw [e] at f5 f6
    exact ⟨by simp only [RenderTarget.mPixelSize, RenderTarget.mChannelSize, f4], f5, f6⟩
  obtain ⟨kp, ks, ko⟩ := key w h mips hw1 hw hh1 hh hm1 hm
  refine ⟨?_, ?_, ?_, ?_⟩
  · rw [ko 0 (by omega)]
    simp [pixelsBefore]
  · intro k hk1 hk
    obtain ⟨j, rfl⟩ : ∃ j, k = j + 1 := ⟨k - 1, by omega⟩
    simp only [Nat.add_sub_cancel]
    rw [ko (j + 1) hk, ko j (by omega), kp, ← levelDim_eq_max, ← levelDim_eq_max]
    simp only [pixelsBefore]
    ring
  · obtain ⟨j, rfl⟩ : ∃ j, mips = j + 1 := ⟨mips - 1, by omega⟩
    simp only [Nat.add_sub_cancel]
    rw [ks, ko j (by omega), kp, ← levelDim_eq_max, ← levelDim_eq_max]
    simp only [pixelsBefore]
    ring
  · obtain ⟨kp4, ks4, ko4⟩ := key 4 4 3 (by decide) (by decide) (by decide) (by decide)
      (by decide) (by decide)
    have p1 : pixelsBefore 4 4 1 = 16 := by decide
    have p2 : pixelsBefore 4 4 2 = 20 := by decide
    have p3 : pixelsBefore 4 4 3 = 21 := by decide
    rw [ko4 0 (by decide), ko4 1 (by decide), ko4 2 (by decide), ks4, kp4, p1, p2, p3]
    refine ⟨by simp [pixelsBefore], ?_, ?_, ?_⟩ <;> ring

theorem resize_offsets_witness :
    1 ≤ 5 ∧ 5 < 65536 ∧ 1 ≤ 3 ∧ 3 < 65536 ∧ 1 ≤ 4 ∧ 4 < 256 ∧
    ((emptyTarget .RGFF).Resize 5 3 4 true).2.mMipOffsets 0 = 0 ∧
    ((emptyTarget .RGFF).Resize 5 3 4 true).2.mMipOffsets 1 =
      ((emptyTarget .RGFF).Resize 5 3 4 true).2.mMipOffsets (1 - 1) +
        ((emptyTarget .RGFF).Resize 5 3 4 true).2.mPixelSize * max 1 (5 >>> (1 - 1)) *
          max 1 (3 >>> (1 - 1)) ∧
    ((emptyTarget .RGFF).Resize 5 3 4 true).2.mMipOffsets 3 =
      ((emptyTarget .RGFF).Resize 5 3 4 true).2.mMipOffsets (3 - 1) +
        ((emptyTarget .RGFF).Resize 5 3 4 true).2.mPixelSize * max 1 (5 >>> (3 - 1)) *
          max 1 (3 >>> (3 - 1)) ∧
    ((emptyTarget .RGFF).Resize 5 3 4 true).2.mSize =
      ((emptyTarget .RGFF).Resize 5 3 4 true).2.mMipOffsets (4 - 1) +
        ((emptyTarget .RGFF).Resize 5 3 4 true).2.mPixelSize * max 1 (5 >>> (4 - 1)) *
          max 1 (3 >>> (4 - 1)) ∧
    ((emptyTarget .RGFF).Resize 5 3 4 true).2.mSize = 152 :=
  have h := resize_offsets (emptyTarget .RGFF) 5 3 4 true (by decide) (by decide) (by decide)
    (by decide) (by decide) (by decide)
  ⟨by decide, by decide, by decide, by decide, by decide, by decide, h.1,
    h.2.1 1 (by decide) (by decide), h.2.1 3 (by decide) (by decide), h.2.2.1, by decide⟩

/-- With exact arithmetic and the mathematical shift, for a target whose extents are `uint16_t`
values and a pixel `(x, y)` inside the extents `(w, h)` of level `mip`, `SampleBilinear` at
`((x + 0.5) / w, (y + 0.5) / h)` is `GetPixel(x, y, mip)` in all four channels. -/
theorem sample_at_texel_centre (t : RenderTarget) (x y mip : Nat)
    (hW : t.mWidth < 65536) (hH : t.mHeight < 65536)
    (hx : x < levelDim t.mWidth mip) (hy : y < levelDim t.mHeight mip) :
    t.SampleBilinear (((x : ℚ) + 1 / 2) / (levelDim t.mWidth mip : ℚ))
      (((y : ℚ) + 1 / 2) / (levelDim t.mHeight mip : ℚ)) mip = t.GetPixel x y mip := by
  have hwle := levelDim_le t.mWidth mip
  have hhle := levelDim_le t.mHeight mip
  have hx16 : x < 65536 := by omega
  have hy16 : y < 65536 := by omega
  unfold RenderTarget.SampleBilinear
  simp only [centre_coord x _ hx, centre_coord y _ hy, Int.floor_natCast, Int.cast_natCast,
    sub_self, sub_zero, add_zero, blend_zero_fract]
  rw [intmod_of_lt _ _ (by omega) (by exact_mod_cast hx),
    intmod_of_lt _ _ (by omega) (by exact_mod_cast hy), toUInt16_natCast x hx16,
    toUInt16_natCast y hy16]

/-- C5. With exact arithmetic `SampleBilinear` has period 1 in `u` and in `v`, for every target,
level and coordinates, negative ones included: shifting `u` and `v` by integers does not change
the sample, `SampleBilinear(1 + e, v)` is `SampleBilinear(e, v)`, and the sample at `u` is the
sample at `u - floor(u)`. -/
theorem sample_periodic (t : RenderTarget) (u v : ℚ) (i j : ℤ) (mip : Nat) :
    t.SampleBilinear (u + i) (v + j) mip = t.SampleBilinear u v mip ∧
    t.SampleBilinear (1 + u) v mip = t.SampleBilinear u v mip ∧
    t.SampleBilinear (u - ⌊u⌋) v mip = t.SampleBilinear u v mip := by
  have key : ∀ (u v : ℚ) (i j : ℤ),
      t.SampleBilinear (u + i) (v + j) mip = t.SampleBilinear u v mip := by
    intro u v i j
    unfold RenderTarget.SampleBilinear
    simp only [Int.floor_add_int, Int.cast_add, add_sub_add_right_eq_sub]
  refine ⟨key u v i j, ?_, ?_⟩
  · have h := key u v 1 0
    simp only [Int.cast_one, Int.cast_zero, add_zero] at h
    rw [add_comm]
    exact h
  · have h := key u v (-⌊u⌋) 0
    simp only [Int.cast_neg, Int.cast_zero, add_zero] at h
    rw [sub_eq_add_neg]
    exact h

/-- C6, amended. With the arithmetic taken as exact: on a laid-out target, for a level `k` with
`1 ≤ k < mMips` whose previous level has twice its extent in both axes, after `GenerateMIPs` the
pixel `(x, y)` of level `k` is what `GetPixel` reads after `SetPixel` stored the channel-wise
mean of the pixels `(2x, 2y)`, `(2x+1, 2y)`, `(2x, 2y+1)`, `(2x+1, 2y+1)` of level `k - 1`,
taken in the state `s` reached when the levels `1 .. k-1` have been produced. -/
theorem generate_mips_averages (t : RenderTarget) (hl : t.Layout) (k x y : Nat)
    (hk1 : 1 ≤ k) (hk : k < t.mMips)
    (hw : levelDim t.mWidth (k - 1) = 2 * levelDim t.mWidth k)
    (hh : levelDim t.mHeight (k - 1) = 2 * levelDim t.mHeight k)
    (hx : x < levelDim t.mWidth k) (hy : y < levelDim t.mHeight k) :
    t.GenerateMIPs.GetPixel x y k =
      ((genLoop (k - 1) 1 t.mWidth t.mHeight t).SetPixel x y
        (mean4 ((genLoop (k - 1) 1 t.mWidth t.mHeight t).GetPixel (2 * x) (2 * y) (k - 1))
          ((genLoop (k - 1) 1 t.mWidth t.mHeight t).GetPixel (2 * x + 1) (2 * y) (k - 1))
          ((genLoop (k - 1) 1 t.mWidth t.mHeight t).GetPixel (2 * x) (2 * y + 1) (k - 1))
          ((genLoop (k - 1) 1 t.mWidth t.mHeight t).GetPixel (2 * x + 1) (2 * y + 1) (k - 1)))
        k).GetPixel x y k := by
  obtain ⟨sl, ssf, _⟩ := genLoop_frame (k - 1) 1 t.mWidth t.mHeight t hl
  obtain ⟨s1, _, s3, s4, s5, _⟩ := ssf
  have e : t.mMips - 1 = (k - 1) + ((t.mMips - k - 1) + 1) := by omega
  have ek : 1 + (k - 1) = k := by omega
  have ek2 : k - 1 + 1 = k := by omega
  have hwk : halve (halve^[k - 1] t.mWidth) = levelDim t.mWidth k := by
    rw [halve_iterate _ hl.width_pos, ← levelDim_succ, ek2]
  have hhk : halve (halve^[k - 1] t.mHeight) = levelDim t.mHeight k := by
    rw [halve_iterate _ hl.height_pos, ← levelDim_succ, ek2]
  unfold RenderTarget.GenerateMIPs
  rw [if_neg (by simp [hl.isValid]), e, genLoop_add, ek]
  simp only [genLoop]
  rw [hwk, hhk]
  generalize genLoop (k - 1) 1 t.mWidth t.mHeight t = s at sl s1 s3 s4 s5 ⊢
  obtain ⟨a, _, _, d⟩ := genLevel_spec (levelDim t.mWidth k) (levelDim t.mHeight k) k s sl
  obtain ⟨_, _, c2⟩ := genLoop_frame (t.mMips - k - 1) (k + 1) (levelDim t.mWidth k)
    (levelDim t.mHeight k) _ a
  rw [c2 x y k (by omega), d hk1 (by rw [s5]; exact hk) (by rw [s3]) (by rw [s4]) x y hx hy,
    sample_between_four s x y _ _ (k - 1) (by rw [s3]; exact hl.width_lt)
      (by rw [s4]; exact hl.height_lt) (by rw [s3]; exact hw) (by rw [s4]; exact hh) hx hy,
    sl.GetPixel_SetPixel_same x y k _ (by rw [s5]; exact hk) (by rw [s3]; exact hx)
      (by rw [s4]; exact hy)]

theorem sample22_layout : sample22.Layout :=
  ((((Resize_layout (emptyTarget .RGBFFF) 2 2 2 (by decide) (by decide) (by decide) (by decide)
    (by decide)).SetPixel 0 0 0 ⟨1, 0, 0, 0⟩).SetPixel 1 0 0 ⟨0, 1, 0, 0⟩).SetPixel 0 1 0
      ⟨0, 0, 1, 0⟩).SetPixel 1 1 0 ⟨1, 1, 1, 0⟩

theorem generate_mips_averages_witness :
    sample22.Layout ∧ 1 ≤ 1 ∧ 1 < sample22.mMips ∧
    levelDim sample22.mWidth (1 - 1) = 2 * levelDim sample22.mWidth 1 ∧
    levelDim sample22.mHeight (1 - 1) = 2 * levelDim sample22.mHeight 1 ∧
    0 < levelDim sample22.mWidth 1 ∧ 0 < levelDim sample22.mHeight 1 ∧
    sample22.GenerateMIPs.GetPixel 0 0 1 =
      (sample22.SetPixel 0 0
        (mean4 (sample22.GetPixel 0 0 0) (sample22.GetPixel 1 0 0) (sample22.GetPixel 0 1 0)
          (sample22.GetPixel 1 1 0)) 1).GetPixel 0 0 1 ∧
    sample22.GenerateMIPs.GetPixel 0 0 1 = ⟨1 / 2, 1 / 2, 1 / 2, 0⟩ := by
  have h : sample22.GenerateMIPs.GetPixel 0 0 1 =
      (sample22.SetPixel 0 0
        (mean4 (sample22.GetPixel 0 0 0) (sample22.GetPixel 1 0 0) (sample22.GetPixel 0 1 0)
          (sample22.GetPixel 1 1 0)) 1).GetPixel 0 0 1 :=
    generate_mips_averages sample22 sample22_layout 1 0 0 (by decide) (by decide) (by decide)
      (by decide) (by decide) (by decide)
  refine ⟨sample22_layout, by decide, by decide, by decide, by decide, by decide, by decide,
    h, ?_⟩
  obtain ⟨b1, b2, b3, b4⟩ := sample22_base
  have hf : sample22.mFormat = .RGBFFF := by decide
  rw [h, sample22_layout.GetPixel_SetPixel_same 0 0 1 _ (by decide) (by decide) (by decide),
    b1, b2, b3, b4, hf]
  simp only [storedPixel, mean4]
  norm_num

/-- C7. Whatever the target held before, when `Resize` returns true `GetPixel` returns the
all-zero pixel afterwards at every position of every level, in every format. -/
theorem resize_discards_contents (t : RenderTarget) (w h mips : Nat) (ok : Bool)
    (hok : (t.Resize w h mips ok).1 = true) (x y mip : Nat) :
    (t.Resize w h mips ok).2.GetPixel x y mip = Pixel.zero := by
  rw [Resize_fst] at hok
  simp only [Bool.and_eq_true, decide_eq_true_eq] at hok
  obtain ⟨hz, rfl⟩ := hok
  unfold RenderTarget.Resize
  rw [if_neg hz]
  simp only [if_true]
  unfold RenderTarget.GetPixel
  split
  · rfl
  · simp only
    split
    · rfl
    · split
      · rfl
      · exact readPixel_replicate_zero _ _ _ _

theorem resize_discards_contents_witness :
    ((sample443.SetPixel 1 1 ⟨1, 1, 1, 0⟩ 0).Resize 2 2 1 true).1 = true ∧
    ((sample443.SetPixel 1 1 ⟨1, 1, 1, 0⟩ 0).Resize 2 2 1 true).2.GetPixel 1 1 0 = Pixel.zero :=
  have h : ((sample443.SetPixel 1 1 ⟨1, 1, 1, 0⟩ 0).Resize 2 2 1 true).1 = true := by decide
  ⟨h, resize_discards_contents _ 2 2 1 true h 1 1 0⟩

/-- C8. For `uint16_t` extents and a `uint8_t` mip count: `Resize` with width 0 or height 0
leaves the target not valid, with a null buffer, `mSize` 0 and width, height and mip count 0;
and the `mSize` that `Resize` computes is 0 exactly when the width or the height is 0. -/
theorem resize_to_empty (t : RenderTarget) (w h mips : Nat) (ok : Bool)
    (hw : w < 65536) (hh : h < 65536) (hm : mips < 256) :
    ((w = 0 ∨ h = 0) →
      (t.Resize w h mips ok).2.IsValid = false ∧ (t.Resize w h mips ok).2.mpBuffer = none ∧
      (t.Resize w h mips ok).2.mSize = 0 ∧ (t.Resize w h mips ok).2.mWidth = 0 ∧
      (t.Resize w h mips ok).2.mHeight = 0 ∧ (t.Resize w h mips ok).2.mMips = 0) ∧
    ((t.Resize w h mips ok).2.mSize = 0 ↔ (w = 0 ∨ h = 0)) := by
  have hclear : (w = 0 ∨ h = 0) →
      (t.Resize w h mips ok).2.IsValid = false ∧ (t.Resize w h mips ok).2.mpBuffer = none ∧
      (t.Resize w h mips ok).2.mSize = 0 ∧ (t.Resize w h mips ok).2.mWidth = 0 ∧
      (t.Resize w h mips ok).2.mHeight = 0 ∧ (t.Resize w h mips ok).2.mMips = 0 := by
    intro hz
    have hz2 := (base_size_eq_zero t w h hw hh).mpr hz
    unfold RenderTarget.Resize
    rw [if_pos hz2]
    exact ⟨rfl, rfl, hz2, rfl, rfl, rfl⟩
  refine ⟨hclear, ?_, fun hz => (hclear hz).2.2.1⟩
  intro hs
  by_contra hne
  obtain ⟨_, _, _, _, f5, _, _⟩ := Resize_fields t w h mips ok (by omega) hw (by omega) hh hm
  have h1 := pixelsBefore_pos w h (max 1 mips) (le_max_left _ _)
  have h2 := Nat.mul_pos (mPixelSize_pos t) h1
  omega

theorem resize_to_empty_witness :
    0 < 65536 ∧ 0 < 65536 ∧ 1 < 256 ∧
    (((0 = 0 ∨ 0 = 0) →
      (sample443.Resize 0 0 1 true).2.IsValid = false ∧
      (sample443.Resize 0 0 1 true).2.mpBuffer = none ∧
      (sample443.Resize 0 0 1 true).2.mSize = 0 ∧ (sample443.Resize 0 0 1 true).2.mWidth = 0 ∧
      (sample443.Resize 0 0 1 true).2.mHeight = 0 ∧ (sample443.Resize 0 0 1 true).2.mMips = 0) ∧
    ((sample443.Resize 0 0 1 true).2.mSize = 0 ↔ (0 = 0 ∨ 0 = 0))) :=
  ⟨by decide, by decide, by decide,
    resize_to_empty sample443 0 0 1 true (by decide) (by decide) (by decide)⟩

/-- C9, counterexample. `Resize(0, 0, 1)` on a valid target whose allocation would succeed
returns false. -/
theorem resize_clear_returns_false :
    sample443.IsValid = true ∧ (sample443.Resize 0 0 1 true).1 = false := by
  decide

/-- C9, amended. For `uint16_t` extents and a `uint8_t` mip count, `Resize` returns true exactly
when width and height are both non-zero and the allocation succeeds; with width 0 or height 0 it
returns false; and the flag it returns is `IsValid()` of the target afterwards. -/
theorem resize_returns (t : RenderTarget) (w h mips : Nat) (ok : Bool)
    (hw : w < 65536) (hh : h < 65536) (hm : mips < 256) :
    ((t.Resize w h mips ok).1 = true ↔ (w ≠ 0 ∧ h ≠ 0 ∧ ok = true)) ∧
    ((w = 0 ∨ h = 0) → (t.Resize w h mips ok).1 = false) ∧
    (t.Resize w h mips ok).1 = (t.Resize w h mips ok).2.IsValid := by
  have hiff : (t.Resize w h mips ok).1 = true ↔ (w ≠ 0 ∧ h ≠ 0 ∧ ok = true) := by
    rw [Resize_fst]
    simp only [Bool.and_eq_true, decide_eq_true_eq, Ne, base_size_eq_zero t w h hw hh]
    constructor
    · rintro ⟨h1, h2⟩
      exact ⟨fun h0 => h1 (Or.inl h0), fun h0 => h1 (Or.inr h0), h2⟩
    · rintro ⟨h1, h2, h3⟩
      exact ⟨fun h0 => h0.elim h1 h2, h3⟩
  refine ⟨hiff, ?_, ?_⟩
  · intro hz
    cases hr : (t.Resize w h mips ok).1
    · rfl
    · have := hiff.mp hr
      omega
  · by_cases hz : w = 0 ∨ h = 0
    · have hv := ((Resize_invalid_of_zero t w h mips ok hw hh) hz)
      rw [hv]
      cases hr : (t.Resize w h mips ok).1
      · rfl
      · have := hiff.mp hr
        omega
    · obtain ⟨_, _, _, _, f5, _, f7⟩ :=
        Resize_fields t w h mips ok (by omega) hw (by omega) hh hm
      have h1 := pixelsBefore_pos w h (max 1 mips) (le_max_left _ _)
      have h2 := Nat.mul_pos (mPixelSize_pos t) h1
      have hfst : (t.Resize w h mips ok).1 = ok := by
        rw [Resize_fst]
        have : sizeT (t.mPixelSize * w * h) ≠ 0 := by
          rw [Ne, base_size_eq_zero t w h hw hh]; exact hz
        simp [this]
      unfold RenderTarget.IsValid
      rw [hfst, f7, f5]
      cases ok
      · rfl
      · simp only [if_true, Option.isSome_some, Bool.true_and]
        exact (decide_eq_true h2).symm

theorem resize_returns_witness :
    0 < 65536 ∧ 0 < 65536 ∧ 1 < 256 ∧
    (((sample443.Resize 0 0 1 true).1 = true ↔ (0 ≠ 0 ∧ 0 ≠ 0 ∧ true = true)) ∧
    ((0 = 0 ∨ 0 = 0) → (sample443.Resize 0 0 1 true).1 = false) ∧
    (sample443.Resize 0 0 1 true).1 = (sample443.Resize 0 0 1 true).2.IsValid) :=
  ⟨by decide, by decide, by decide,
    resize_returns sample443 0 0 1 true (by decide) (by decide) (by decide)⟩

/-- C10, the code at the failing input. With root `/data/x` the guard accepts the target
`/data/x2/f.png`, and with the save root `/srv/garrysmod/data` it accepts
`/srv/garrysmod/data2/f.png`; in both the components of the target do not start with the
components of the root. -/
theorem verifyInRoot_accepts_sibling :
    verifyInRoot "/data/x2/f.png" "/data/x" = true ∧
    isDescendant "/data/x2/f.png" "/data/x" = false ∧
    verifyInRoot "/srv/garrysmod/data2/f.png" "/srv/garrysmod/data" = true ∧
    isDescendant "/srv/garrysmod/data2/f.png" "/srv/garrysmod/data" = false := by
  decide

/-! ## The guard of the sandbox on resolved paths -/

/-- The guard accepts every path that starts with the characters of the root. -/
theorem verifyInRoot_append (root rest : String) : verifyInRoot (root ++ rest) root = true := by
  unfold verifyInRoot
  simp [String.toList, String.data_append]

/-- A relative path joined to the root always passes the guard, whatever its components. -/
theorem verifyInRoot_pathJoin (root p : String) (hp : isAbsolute p = false) :
    verifyInRoot (pathJoin root p) root = true := by
  unfold pathJoin
  rw [if_neg (by simp [hp])]
  split_ifs with h1 h2
  · have hd : root.data = [] := h1
    have hlen : root.length = 0 := by
      show root.data.length = 0
      rw [hd]; rfl
    unfold verifyInRoot
    simp [String.toList, hd, hlen]
  · exact verifyInRoot_append root p
  · rw [String.append_assoc]
    exact verifyInRoot_append root _

/-- C11, the code at the failing inputs. With the working directory `/srv`, `Load` resolves
`../../../etc/passwd` to a path that still starts with the characters of its root, so the guard
accepts it although the file lies outside the root, and `Load` decodes that file and copies
its bytes into the target; `Save`
passes the guard of its own root in the same way and hands the path to the codec. Where the
resolution collapses `..`, the sibling `../vistrace2/f.png` still passes. The path
`sub/dir/out.png` passes the guard of the save root, as claimed. -/
theorem traversal_passes_guard :
    verifyInRoot (absolute "/srv" (pathJoin "/srv/garrysmod/data/vistrace" "../../../etc/passwd"))
      "/srv/garrysmod/data/vistrace" = true ∧
    isDescendant
      (fullPathName (absolute "/srv"
        (pathJoin "/srv/garrysmod/data/vistrace" "../../../etc/passwd")))
      "/srv/garrysmod/data/vistrace" = false ∧
    (sample443.Load
      (worldWithFile "/srv/garrysmod/data/vistrace/../../../etc/passwd"
        ⟨1, 1, [.byte 9, .byte 9, .byte 9]⟩) "../../../etc/passwd" false).1 = true ∧
    (sample443.Load
      (worldWithFile "/srv/garrysmod/data/vistrace/../../../etc/passwd"
        ⟨1, 1, [.byte 9, .byte 9, .byte 9]⟩) "../../../etc/passwd" false).2.mpBuffer
      = some [.byte 9, .byte 9, .byte 9] ∧
    ((sample443.Save "/srv" true "../../../etc/passwd" 0).2.bind (fun e => e.write)).map
      (fun c => c.path) = some "/srv/garrysmod/data/../../../etc/passwd" ∧
    (sample443.Save "/srv" true "../../../etc/passwd" 0).1 = true ∧
    verifyInRoot (fullPathName (pathJoin "/srv/garrysmod/data/vistrace" "../vistrace2/f.png"))
      "/srv/garrysmod/data/vistrace" = true ∧
    isDescendant (fullPathName (pathJoin "/srv/garrysmod/data/vistrace" "../vistrace2/f.png"))
      "/srv/garrysmod/data/vistrace" = false ∧
    verifyInRoot (absolute "/srv" (pathJoin "/srv/garrysmod/data" "sub/dir/out.png"))
      "/srv/garrysmod/data" = true := by
  refine ⟨by rfl, by rfl, by rfl, by rfl, by rfl, by rfl, by rfl, by rfl, by rfl⟩

/-- Every failure of `Load` before the image is decoded, and a failed decode in the branch of the
float formats, returns false and leaves the target as it was. -/
theorem Load_atomic_before_resize (t : RenderTarget) (w : World) (filepath : String)
    (generateMips : Bool)
    (h : t.IsValid = false ∨
      w.is_directory (absolute w.currentPath (w.currentPath ++ "/garrysmod/data/vistrace"))
        = false ∨
      verifyInRoot
        (absolute w.currentPath
          (pathJoin (absolute w.currentPath (w.currentPath ++ "/garrysmod/data/vistrace"))
            filepath))
        (absolute w.currentPath (w.currentPath ++ "/garrysmod/data/vistrace")) = false ∨
      (hasExtension
          (absolute w.currentPath
            (pathJoin (absolute w.currentPath (w.currentPath ++ "/garrysmod/data/vistrace"))
              filepath)) = true ∧
        validExtension
          ((pathExtension
            (absolute w.currentPath
              (pathJoin (absolute w.currentPath (w.currentPath ++ "/garrysmod/data/vistrace"))
                filepath))).drop 1) = false) ∨
      (isFloat t.mFormat = true ∧
        w.stbi_loadf
          (absolute w.currentPath
            (pathJoin (absolute w.currentPath (w.currentPath ++ "/garrysmod/data/vistrace"))
              filepath)) (CHANNELS t.mFormat) = none)) :
    t.Load w filepath generateMips = (false, t) := by
  unfold RenderTarget.Load
  by_cases hv : t.IsValid = true
  swap
  · simp [hv]
  rw [if_neg (by simp [hv])]
  simp only
  by_cases hd : w.is_directory
      (absolute w.currentPath (w.currentPath ++ "/garrysmod/data/vistrace")) = true
  swap
  · simp [hd]
  rw [if_neg (by simp [hd])]
  by_cases hg : verifyInRoot
      (absolute w.currentPath
        (pathJoin (absolute w.currentPath (w.currentPath ++ "/garrysmod/data/vistrace"))
          filepath))
      (absolute w.currentPath (w.currentPath ++ "/garrysmod/data/vistrace")) = true
  swap
  · simp [hg]
  rw [if_neg (by simp [hg])]
  split_ifs with he
  · rfl
  · rcases h with h | h | h | h | h
    · simp [hv] at h
    · simp [hd] at h
    · simp [hg] at h
    · exact absurd (by simp [h.1, h.2]) he
    · obtain ⟨hf, hn⟩ := h
      cases hfmt : t.mFormat <;> simp [hfmt, isFloat] at hf <;> simp [hfmt, hn] <;>
        simp [hfmt] at hn <;> simp [hn]

/-- C12, the code at the failing input. On a valid target of three 8-bit channels, a `Load`
whose decode fails returns false after it has released the buffer and reset width, height, mip
count and size to 0. -/
theorem load_decode_failure_clears_target :
    sample443.IsValid = true ∧ sample443.mWidth = 4 ∧ sample443.mHeight = 4 ∧
    sample443.mMips = 3 ∧ sample443.mSize = 63 ∧
    (sample443.Load (worldWith none) "missing.png" false).1 = false ∧
    (sample443.Load (worldWith none) "missing.png" false).2.mpBuffer = none ∧
    (sample443.Load (worldWith none) "missing.png" false).2.mWidth = 0 ∧
    (sample443.Load (worldWith none) "missing.png" false).2.mHeight = 0 ∧
    (sample443.Load (worldWith none) "missing.png" false).2.mMips = 0 ∧
    (sample443.Load (worldWith none) "missing.png" false).2.mSize = 0 := by
  refine ⟨by rfl, by rfl, by rfl, by rfl, by rfl, by rfl, by rfl, by rfl, by rfl, by rfl,
    by rfl⟩

theorem saveName_codec_valid (fmt : RTFormat) (filename : String) :
    validExtension (saveName fmt filename).2 = true := by
  unfold saveName
  simp only
  split_ifs <;> first
    | rfl
    | (simp only [validExtension, Bool.or_eq_true, beq_iff_eq] at *; tauto)

/-- C13, the code at the failing input. A name without an extension is written under that very
name: for `frame` on an 8-bit target `Save` selects the codec `png` and hands it the file
`frame` below the save root, not `frame.png`; the sibling case `frame.001` does get the default
extension appended. -/
theorem save_keeps_bare_name :
    saveName .RGB888 "frame" = ("frame", "png") ∧
    (sample443.Save "/srv" true "frame" 0).1 = true ∧
    ((sample443.Save "/srv" true "frame" 0).2.bind (fun e => e.write)).map (fun c => c.path)
      = some "/srv/garrysmod/data/frame" ∧
    ((sample443.Save "/srv" true "frame" 0).2.bind (fun e => e.write)).map (fun c => c.codec)
      = some "png" ∧
    saveName .RGB888 "frame.001" = ("frame.001.png", "png") := by
  refine ⟨by rfl, by rfl, by rfl, by rfl, by rfl⟩

/-- What `Save` does with the name, case by case. When `Save` gets past its guard it calls the
codec that `saveName` selects, on the file that `saveName` names below the save root. For a name
whose extension is one of hdr, png, jpg, bmp that is the name unchanged and the codec of that
extension; for a name with another extension it is the name followed by a period and the default
extension (hdr for the float formats, png for the others), which selects the codec; for a name
with no extension it is the name unchanged, and the default extension selects the codec. -/
theorem save_name_and_codec (t : RenderTarget) (currentPath : String) (writeOk : Bool)
    (filename : String) (mip : Nat) (hm : mip < t.mMips)
    (hg : verifyInRoot
      (absolute currentPath
        (pathJoin (absolute currentPath (currentPath ++ "/garrysmod/data"))
          (saveName t.mFormat filename).1))
      (absolute currentPath (currentPath ++ "/garrysmod/data")) = true) :
    (∃ e c, (t.Save currentPath writeOk filename mip).2 = some e ∧ e.write = some c ∧
      c.codec = (saveName t.mFormat filename).2 ∧
      c.path = absolute currentPath
        (pathJoin (absolute currentPath (currentPath ++ "/garrysmod/data"))
          (saveName t.mFormat filename).1)) ∧
    (hasExtension filename = true →
      validExtension ((pathExtension filename).drop 1) = true →
      saveName t.mFormat filename = (filename, (pathExtension filename).drop 1)) ∧
    (hasExtension filename = true →
      validExtension ((pathExtension filename).drop 1) = false →
      saveName t.mFormat filename =
        (filename ++ ("." ++ (if isFloat t.mFormat then "hdr" else "png")),
          if isFloat t.mFormat then "hdr" else "png")) ∧
    (hasExtension filename = false →
      saveName t.mFormat filename = (filename, if isFloat t.mFormat then "hdr" else "png")) := by
  refine ⟨?_, ?_, ?_, ?_⟩
  · unfold RenderTarget.Save
    rw [if_neg (by omega)]
    simp only
    rw [if_neg (by simp [hg]), if_pos (saveName_codec_valid _ _)]
    exact ⟨_, _, rfl, rfl, rfl, rfl⟩
  · intro he hv
    unfold saveName
    simp only [validExtension, Bool.or_eq_true, beq_iff_eq] at hv
    simp only [he, if_true]
    rw [if_pos (by simp only [Bool.or_eq_true, beq_iff_eq]; tauto)]
  · intro he hv
    unfold saveName
    simp only [validExtension, Bool.or_eq_false_iff, beq_eq_false_iff_ne] at hv
    simp only [he, if_true]
    rw [if_neg (by simp only [Bool.or_eq_true, beq_iff_eq]; tauto)]
  · intro he
    unfold saveName
    simp only [he, Bool.false_eq_true, if_false]

theorem save_name_and_codec_example :
    0 < sample443.mMips ∧
    verifyInRoot
      (absolute "/srv"
        (pathJoin (absolute "/srv" ("/srv" ++ "/garrysmod/data"))
          (saveName sample443.mFormat "frame.001").1))
      (absolute "/srv" ("/srv" ++ "/garrysmod/data")) = true ∧
    (∃ e c, (sample443.Save "/srv" true "frame.001" 0).2 = some e ∧ e.write = some c ∧
      c.codec = "png" ∧ c.path = "/srv/garrysmod/data/frame.001.png") ∧
    saveName .RGB888 "frame.001" = ("frame.001.png", "png") ∧
    saveName .RF "shot.jpg" = ("shot.jpg", "jpg") ∧
    saveName .RF "shot" = ("shot", "hdr") :=
  have h := save_name_and_codec sample443 "/srv" true "frame.001" 0 (by decide) (by rfl)
  ⟨by decide, by rfl, h.1, by rfl, by rfl, by rfl⟩

/-! ## The mip count of a full chain -/

theorem ceilLog2_le (n : Nat) (hn : n < 65536) : ceilLog2 n ≤ 16 := by
  unfold ceilLog2
  rw [← Nat.le_pow_iff_clog_le (by decide)]
  omega

theorem ceilLog2_max (w h : Nat) : max (ceilLog2 w) (ceilLog2 h) = ceilLog2 (max w h) := by
  unfold ceilLog2
  rcases Nat.le_total w h with hle | hle
  · rw [max_eq_right hle, max_eq_right (Nat.clog_mono_right 2 hle)]
  · rw [max_eq_left hle, max_eq_left (Nat.clog_mono_right 2 hle)]

theorem MipsFromDimensions_eq (w h : Nat) (hw : w < 65536) (hh : h < 65536) :
    MipsFromDimensions w h = ceilLog2 (max w h) + 1 := by
  have h1 := ceilLog2_le w hw
  have h2 := ceilLog2_le h hh
  unfold MipsFromDimensions
  simp only
  rw [← ceilLog2_max]
  omega

theorem ceilLog2_eq_ceil_logb (n : Nat) :
    ((ceilLog2 n : ℕ) : ℤ) = ⌈Real.logb 2 (n : ℝ)⌉ := by
  have h := Real.ceil_logb_natCast (b := 2) (r := (n : ℝ)) (Nat.cast_nonneg n)
  rw [Nat.cast_ofNat] at h
  rw [h, Int.clog_natCast]
  rfl

theorem shift_by_ceilLog2 (d c : Nat) (hc : ceilLog2 d ≤ c) : max 1 (d >>> c) = 1 := by
  have h1 : d ≤ 2 ^ ceilLog2 d := Nat.le_pow_clog (by decide) d
  have h2 : 2 ^ ceilLog2 d ≤ 2 ^ c := Nat.pow_le_pow_right (by decide) hc
  have h3 : d / 2 ^ c ≤ 1 := Nat.div_le_of_le_mul (by omega)
  rw [Nat.shiftRight_eq_div_pow]
  omega

/-- C14. With exact arithmetic, for width and height in 1..65535 `MipsFromDimensions` returns
`ceil(log2(max(width, height))) + 1`, and at the last level of a chain of that many levels both
extents `max(1, d >> (m - 1))` are 1. -/
theorem mips_from_dimensions (w h : Nat) (_hw1 : 1 ≤ w) (hw : w < 65536) (_hh1 : 1 ≤ h)
    (hh : h < 65536) :
    ((MipsFromDimensions w h : ℕ) : ℤ) = ⌈Real.logb 2 ((max w h : ℕ) : ℝ)⌉ + 1 ∧
    max 1 (w >>> (MipsFromDimensions w h - 1)) = 1 ∧
    max 1 (h >>> (MipsFromDimensions w h - 1)) = 1 := by
  rw [MipsFromDimensions_eq w h hw hh, Nat.add_sub_cancel]
  refine ⟨?_, ?_, ?_⟩
  · rw [← ceilLog2_eq_ceil_logb]
    push_cast
    rfl
  · exact shift_by_ceilLog2 w _ (Nat.clog_mono_right 2 (le_max_left w h))
  · exact shift_by_ceilLog2 h _ (Nat.clog_mono_right 2 (le_max_right w h))

theorem mips_from_dimensions_witness :
    1 ≤ 5 ∧ 5 < 65536 ∧ 1 ≤ 3 ∧ 3 < 65536 ∧
    ((MipsFromDimensions 5 3 : ℕ) : ℤ) = ⌈Real.logb 2 ((max 5 3 : ℕ) : ℝ)⌉ + 1 ∧
    max 1 (5 >>> (MipsFromDimensions 5 3 - 1)) = 1 ∧
    max 1 (3 >>> (MipsFromDimensions 5 3 - 1)) = 1 ∧
    MipsFromDimensions 5 3 = 4 ∧ MipsFromDimensions 4 4 = 3 ∧ MipsFromDimensions 1 1 = 1 :=
  have h := mips_from_dimensions 5 3 (by decide) (by decide) (by decide) (by decide)
  ⟨by decide, by decide, by decide, by decide, h.1, h.2.1, h.2.2,
    by simp [MipsFromDimensions, ceilLog2, Nat.clog],
    by simp [MipsFromDimensions, ceilLog2, Nat.clog],
    by simp [MipsFromDimensions, ceilLog2, Nat.clog]⟩

/-! ## Channels of the pixel read back -/

theorem readPixel_unstored (fmt : RTFormat) (cs : Nat) (buf : List MemVal) (o : Nat) :
    (readPixel fmt cs buf o).a = 0 ∧
    (fmt ∈ [RTFormat.R8, .RG88, .RF, .RGFF] → (readPixel fmt cs buf o).b = 0) ∧
    (fmt ∈ [RTFormat.R8, .RF] → (readPixel fmt cs buf o).g = 0) := by
  cases fmt <;> simp [readPixel]

theorem GetPixel_cases (t : RenderTarget) (x y mip : Nat) :
    t.GetPixel x y mip = Pixel.zero ∨
    ∃ buf o, t.GetPixel x y mip = readPixel t.mFormat t.mChannelSize buf o := by
  unfold RenderTarget.GetPixel
  split
  · exact Or.inl rfl
  · simp only
    split
    · exact Or.inl rfl
    · split
      · exact Or.inl rfl
      · split
        · exact Or.inl rfl
        · exact Or.inr ⟨_, _, rfl⟩

theorem readPixel_channels (fmt : RTFormat) (buf : List MemVal) (o : Nat) :
    (readPixel fmt (STRIDES fmt) buf o).r = loadChannel fmt buf o ∧
    (2 ≤ CHANNELS fmt →
      (readPixel fmt (STRIDES fmt) buf o).g = loadChannel fmt buf (o + STRIDES fmt)) ∧
    (3 ≤ CHANNELS fmt →
      (readPixel fmt (STRIDES fmt) buf o).b = loadChannel fmt buf (o + 2 * STRIDES fmt)) := by
  cases fmt <;> simp [readPixel, loadChannel, isFloat, STRIDES, CHANNELS, Nat.mul_comm]

/-- C15. Whatever the state of the target and the position, `GetPixel` returns a = 0, b = 0 for
the formats of one and two channels and g = 0 for the formats of one channel, also right after
a `SetPixel` of any pixel at that position. On a laid-out target the channels of an in-range
pixel are read from consecutive slots of `mChannelSize` bytes at the offset of the pixel, in the
order r, g, b. -/
theorem unstored_channels_read_zero (t : RenderTarget) (x y mip : Nat) :
    (t.GetPixel x y mip).a = 0 ∧
    (t.mFormat ∈ [RTFormat.R8, .RG88, .RF, .RGFF] → (t.GetPixel x y mip).b = 0) ∧
    (t.mFormat ∈ [RTFormat.R8, .RF] → (t.GetPixel x y mip).g = 0) ∧
    (∀ p : Pixel, ((t.SetPixel x y p mip).GetPixel x y mip).a = 0 ∧
      (t.mFormat ∈ [RTFormat.R8, .RG88, .RF, .RGFF] →
        ((t.SetPixel x y p mip).GetPixel x y mip).b = 0) ∧
      (t.mFormat ∈ [RTFormat.R8, .RF] → ((t.SetPixel x y p mip).GetPixel x y mip).g = 0)) ∧
    (∀ buf, t.Layout → t.mpBuffer = some buf → mip < t.mMips → x < levelDim t.mWidth mip →
      y < levelDim t.mHeight mip →
      (t.GetPixel x y mip).r = loadChannel t.mFormat buf (t.pixelOffset x y mip) ∧
      (2 ≤ CHANNELS t.mFormat → (t.GetPixel x y mip).g =
        loadChannel t.mFormat buf (t.pixelOffset x y mip + t.mChannelSize)) ∧
      (3 ≤ CHANNELS t.mFormat → (t.GetPixel x y mip).b =
        loadChannel t.mFormat buf (t.pixelOffset x y mip + 2 * t.mChannelSize))) := by
  have key : ∀ s : RenderTarget, (s.GetPixel x y mip).a = 0 ∧
      (s.mFormat ∈ [RTFormat.R8, .RG88, .RF, .RGFF] → (s.GetPixel x y mip).b = 0) ∧
      (s.mFormat ∈ [RTFormat.R8, .RF] → (s.GetPixel x y mip).g = 0) := by
    intro s
    rcases GetPixel_cases s x y mip with h | ⟨buf, o, h⟩
    · rw [h]
      exact ⟨rfl, fun _ => rfl, fun _ => rfl⟩
    · rw [h]
      exact readPixel_unstored _ _ _ _
  refine ⟨(key t).1, (key t).2.1, (key t).2.2, ?_, ?_⟩
  · intro p
    have hf := (SetPixel_fields t x y mip p).1
    have hk := key (t.SetPixel x y p mip)
    rw [hf] at hk
    exact hk
  · intro buf hl hb hm hx hy
    rw [hl.GetPixel_eq buf hb x y mip hm hx hy, (hl.pixelOffset_eq x y mip hm hx hy).1]
    exact readPixel_channels _ _ _

theorem sample221_layout : sample221.Layout :=
  Resize_layout _ 2 2 1 (by decide) (by decide) (by decide) (by decide) (by decide)

theorem unstored_channels_read_zero_witness :
    sample221.mFormat ∈ [RTFormat.R8, .RG88, .RF, .RGFF] ∧
    sample221.mFormat ∈ [RTFormat.R8, .RF] ∧
    ((sample221.SetPixel 1 0 ⟨1, 1, 1, 1⟩ 0).GetPixel 1 0 0).a = 0 ∧
    ((sample221.SetPixel 1 0 ⟨1, 1, 1, 1⟩ 0).GetPixel 1 0 0).b = 0 ∧
    ((sample221.SetPixel 1 0 ⟨1, 1, 1, 1⟩ 0).GetPixel 1 0 0).g = 0 ∧
    sample443.Layout ∧ 1 < sample443.mMips ∧ 1 < levelDim sample443.mWidth 1 ∧
    0 < levelDim sample443.mHeight 1 ∧ 2 ≤ CHANNELS sample443.mFormat ∧
    3 ≤ CHANNELS sample443.mFormat ∧
    (∀ buf, sample443.mpBuffer = some buf →
      (sample443.GetPixel 1 0 1).r = loadChannel sample443.mFormat buf 51 ∧
      (sample443.GetPixel 1 0 1).g = loadChannel sample443.mFormat buf (51 + 1) ∧
      (sample443.GetPixel 1 0 1).b = loadChannel sample443.mFormat buf (51 + 2 * 1)) := by
  have h1 := (unstored_channels_read_zero sample221 1 0 0).2.2.2.1 ⟨1, 1, 1, 1⟩
  have h2 := (unstored_channels_read_zero sample443 1 0 1).2.2.2.2
  have m1 : sample221.mFormat ∈ [RTFormat.R8, .RG88, .RF, .RGFF] := by decide
  have m2 : sample221.mFormat ∈ [RTFormat.R8, .RF] := by decide
  refine ⟨m1, m2, h1.1, h1.2.1 m1, h1.2.2 m2, sample443_layout, by decide, by decide,
    by decide, by decide, by decide, ?_⟩
  intro buf hb
  have h3 := h2 buf sample443_layout hb (by decide) (by decide) (by decide)
  exact ⟨h3.1, h3.2.1 (by decide), h3.2.2 (by decide)⟩

/-! ## The wrap of the sampler -/

theorem blend_zero (a b c d : ℚ) : blend 0 0 0 0 a b c d = 0 := by
  simp [blend]

/-- C16. Whatever the state of the target (an invalid one with width and height 0 included) and
the level, the two divisors `SampleBilinear` passes to `intmod` are at least 1, so each
remainder is defined, and when the target is not valid or `mip` is not below `mMips` the sample
is the all-zero pixel for every `u` and `v`. -/
theorem sample_is_total (t : RenderTarget) (u v : ℚ) (mip : Nat) :
    1 ≤ levelDim t.mWidth mip ∧ 1 ≤ levelDim t.mHeight mip ∧
    (∀ a : ℤ, intmodChecked a (levelDim t.mWidth mip) = some (intmod a (levelDim t.mWidth mip))) ∧
    (∀ a : ℤ,
      intmodChecked a (levelDim t.mHeight mip) = some (intmod a (levelDim t.mHeight mip))) ∧
    ((t.IsValid = false ∨ mip ≥ t.mMips) → t.SampleBilinear u v mip = Pixel.zero) := by
  have hw := levelDim_pos t.mWidth mip
  have hh := levelDim_pos t.mHeight mip
  refine ⟨hw, hh, ?_, ?_, ?_⟩
  · intro a
    unfold intmodChecked
    rw [if_neg (by omega)]
  · intro a
    unfold intmodChecked
    rw [if_neg (by omega)]
  · intro hbad
    have hz : ∀ x y, t.GetPixel x y mip = Pixel.zero := fun x y =>
      GetPixel_of_guard t x y mip (by
        rcases hbad with h | h
        · exact Or.inl h
        · exact Or.inr (Or.inl h))
    unfold RenderTarget.SampleBilinear
    simp only [hz, Pixel.zero, blend_zero]

theorem sample_is_total_witness :
    ((emptyTarget .R8).IsValid = false ∨ 0 ≥ (emptyTarget .R8).mMips) ∧
    (emptyTarget .R8).mWidth = 0 ∧ (emptyTarget .R8).mHeight = 0 ∧
    1 ≤ levelDim (emptyTarget .R8).mWidth 0 ∧ 1 ≤ levelDim (emptyTarget .R8).mHeight 0 ∧
    (emptyTarget .R8).SampleBilinear (7 / 3) (-1 / 2) 0 = Pixel.zero :=
  have hbad : (emptyTarget .R8).IsValid = false ∨ 0 ≥ (emptyTarget .R8).mMips :=
    Or.inl (by decide)
  have h := sample_is_total (emptyTarget .R8) (7 / 3) (-1 / 2) 0
  ⟨hbad, by decide, by decide, h.1, h.2.1, h.2.2.2.2 hbad⟩

theorem tmod_neg_one (b : ℤ) (hb2 : 1 < b) : Int.tmod (-1) b = -1 := by
  obtain ⟨n, rfl⟩ := Int.eq_ofNat_of_zero_le (show 0 ≤ b by omega)
  have hn : 1 < n := by exact_mod_cast hb2
  show -((1 % n : ℕ) : ℤ) = -1
  rw [Nat.mod_eq_of_lt hn]
  rfl

theorem tmod_range (a b : ℤ) (ha : -1 ≤ a) (hb : 1 ≤ b) :
    -1 ≤ Int.tmod a b ∧ Int.tmod a b < b := by
  refine ⟨?_, Int.tmod_lt_of_pos a (by omega)⟩
  rcases Int.lt_or_le a 0 with hneg | hpos
  · have ha1 : a = -1 := by omega
    subst ha1
    rcases Int.lt_or_le 1 b with hb2 | hb1
    · rw [tmod_neg_one b hb2]
    · have hb1 : b = 1 := by omega
      subst hb1
      simp
  · have := Int.tmod_nonneg b hpos
    omega

theorem intmod_eq_emod (a b : ℤ) (ha : -1 ≤ a) (hb : 1 ≤ b) : intmod a b = a % b := by
  unfold intmod
  rcases Int.lt_or_le a 0 with hneg | hpos
  · have ha1 : a = -1 := by omega
    subst ha1
    rcases Int.lt_or_le 1 b with hb2 | hb1
    · have e1 := tmod_neg_one b hb2
      have e2 : (-1 : ℤ) % b = b - 1 := by
        have h := Int.emod_emod_of_dvd (-1) (dvd_refl b)
        have h2 : (-1 : ℤ) % b = (b - 1) % b := by
          have : (b - 1 : ℤ) = -1 + b := by ring
          rw [this, Int.add_emod_self]
        rw [h2, Int.emod_eq_of_lt (by omega) (by omega)]
      rw [e1, e2, Int.tmod_eq_of_lt (by omega) (by omega)]
      ring
    · have hb1 : b = 1 := by omega
      subst hb1
      simp
  · rw [Int.tmod_eq_emod hpos (by omega)]
    have h1 : 0 ≤ a % b := Int.emod_nonneg a (by omega)
    have h2 : a % b < b := Int.emod_lt_of_pos a (by omega)
    rw [Int.tmod_eq_emod (by omega) (by omega), Int.add_emod_self, Int.emod_emod_of_dvd a
      (dvd_refl b)]

theorem base_texel_range (u : ℚ) (dim : Nat) (hd : 1 ≤ dim) :
    -1 ≤ ⌊(u - ⌊u⌋) * dim - 1 / 2⌋ ∧ ⌊(u - ⌊u⌋) * dim - 1 / 2⌋ ≤ (dim : ℤ) - 1 := by
  have hf0 : 0 ≤ u - ⌊u⌋ := sub_nonneg.mpr (Int.floor_le u)
  have hf1 : u - ⌊u⌋ < 1 := by
    have := Int.lt_floor_add_one u
    linarith
  have hdq : (1 : ℚ) ≤ dim := by exact_mod_cast hd
  constructor
  · rw [Int.le_floor]
    have : 0 ≤ (u - ⌊u⌋) * dim := mul_nonneg hf0 (by linarith)
    push_cast
    linarith
  · have hlt : ⌊(u - ⌊u⌋) * dim - 1 / 2⌋ < (dim : ℤ) := by
      rw [Int.floor_lt]
      have : (u - ⌊u⌋) * dim < 1 * dim := mul_lt_mul_of_pos_right hf1 (by linarith)
      push_cast
      linarith
    omega

theorem cornerCoord_lt (u : ℚ) (dim : Nat) (off : ℤ) (hd : 1 ≤ dim) (hd16 : dim < 65536)
    (hoff : off = 0 ∨ off = 1) : cornerCoord u dim off < dim := by
  obtain ⟨h1, h2⟩ := base_texel_range u dim hd
  have hm := intmod_eq_emod (⌊(u - ⌊u⌋) * dim - 1 / 2⌋ + off) dim (by omega) (by omega)
  have hn : 0 ≤ (⌊(u - ⌊u⌋) * dim - 1 / 2⌋ + off) % (dim : ℤ) := Int.emod_nonneg _ (by omega)
  have hl : (⌊(u - ⌊u⌋) * dim - 1 / 2⌋ + off) % (dim : ℤ) < dim := Int.emod_lt_of_pos _ (by omega)
  unfold cornerCoord toUInt16
  rw [hm, Int.emod_eq_of_lt hn (by omega)]
  omega

/-- The four pixels `SampleBilinear` reads are those at the coordinates `cornerCoord`. -/
theorem SampleBilinear_corners (t : RenderTarget) (u v : ℚ) (mip : Nat) (xOff yOff : ℤ) :
    t.GetPixel (toUInt16 (intmod (⌊(u - ⌊u⌋) * levelDim t.mWidth mip - 1 / 2⌋ + xOff)
        (levelDim t.mWidth mip)))
      (toUInt16 (intmod (⌊(v - ⌊v⌋) * levelDim t.mHeight mip - 1 / 2⌋ + yOff)
        (levelDim t.mHeight mip))) mip =
    t.GetPixel (cornerCoord u (levelDim t.mWidth mip) xOff)
      (cornerCoord v (levelDim t.mHeight mip) yOff) mip := rfl

/-- For a divisor `b` in 1..65535 and `a` between -1 and `b`, `intmod a b` lies in `[0, b)` and
is the floor-modulo of `a`, congruent to `a` modulo `b`; -1 maps to `b - 1` and `b` to 0; the
sum `a % b + b` inside `intmod` stays in the range of `int`. -/
theorem intmod_wraps (a b : ℤ) (ha : -1 ≤ a) (hab : a ≤ b) (hb1 : 1 ≤ b) (hb : b ≤ 65535) :
    0 ≤ intmod a b ∧ intmod a b < b ∧ intmod a b = a % b ∧ b ∣ (intmod a b - a) ∧
    intmod (-1) b = b - 1 ∧ intmod b b = 0 ∧
    (-(2 : ℤ) ^ 31 ≤ a ∧ a < 2 ^ 31 ∧ -(2 : ℤ) ^ 31 ≤ Int.tmod a b + b ∧
      Int.tmod a b + b < 2 ^ 31) := by
  have hm := intmod_eq_emod a b ha hb1
  have hr := tmod_range a b ha hb1
  refine ⟨?_, ?_, hm, ?_, ?_, ?_, ⟨by omega, by omega, by omega, by omega⟩⟩
  · rw [hm]; exact Int.emod_nonneg a (by omega)
  · rw [hm]; exact Int.emod_lt_of_pos a (by omega)
  · rw [hm]
    exact (dvd_sub_comm).mp (Int.dvd_sub_of_emod_eq rfl)
  · rw [intmod_eq_emod (-1) b (by omega) hb1]
    have h2 : (-1 : ℤ) % b = (b - 1) % b := by
      have : (b - 1 : ℤ) = -1 + b := by ring
      rw [this, Int.add_emod_self]
    rw [h2, Int.emod_eq_of_lt (by omega) (by omega)]
  · rw [intmod_eq_emod b b (by omega) hb1, Int.emod_self]

/-! ## The copy of `Load` -/

theorem copyImage_fields (t : RenderTarget) (img : Image) :
    (t.copyImage img).SameFields t := by
  unfold RenderTarget.copyImage
  split <;> exact RenderTarget.SameFields.refl _

theorem MipsFromDimensions_range (w h : Nat) (hw : w < 65536) (hh : h < 65536) :
    1 ≤ MipsFromDimensions w h ∧ MipsFromDimensions w h < 256 := by
  rw [MipsFromDimensions_eq w h hw hh]
  have := ceilLog2_le (max w h) (by omega)
  omega

/-- When the decoded dimensions are `uint16_t` values and `Load` gets through, the target has
the dimensions of the image and the bytes copied are exactly the bytes of mip 0. -/
theorem loadImage_fits (t : RenderTarget) (allocOk : Bool) (img : Image) (generateMips : Bool)
    (hw : img.width < 65536) (hh : img.height < 65536)
    (hok : (t.loadImage allocOk img generateMips).1 = true) :
    (t.loadImage allocOk img generateMips).2.mWidth = img.width ∧
    (t.loadImage allocOk img generateMips).2.mHeight = img.height ∧
    (t.loadImage allocOk img generateMips).2.copySize img =
      (t.loadImage allocOk img generateMips).2.mPixelSize *
        levelDim (t.loadImage allocOk img generateMips).2.mWidth 0 *
        levelDim (t.loadImage allocOk img generateMips).2.mHeight 0 ∧
    (t.loadImage allocOk img generateMips).2.copySize img ≤
      (t.loadImage allocOk img generateMips).2.mSize := by
  have hwm : img.width % 65536 = img.width := Nat.mod_eq_of_lt hw
  have hhm : img.height % 65536 = img.height := Nat.mod_eq_of_lt hh
  unfold RenderTarget.loadImage at hok ⊢
  simp only [hwm, hhm] at hok ⊢
  generalize hmips : (if generateMips = true then MipsFromDimensions img.width img.height
    else 1) = mips at hok ⊢
  have hmr : 1 ≤ mips ∧ mips < 256 := by
    rw [← hmips]
    split
    · exact MipsFromDimensions_range _ _ hw hh
    · omega
  by_cases hr : (t.Resize img.width img.height mips allocOk).1 = true
  swap
  · simp [hr] at hok
  simp only [hr, Bool.not_true, Bool.false_eq_true, if_false] at hok ⊢
  have hnz := hr
  rw [Resize_fst] at hnz
  simp only [Bool.and_eq_true, decide_eq_true_eq, Ne, base_size_eq_zero t _ _ hw hh] at hnz
  obtain ⟨f1, f2, f3, f4, f5, _, _⟩ := Resize_fields t img.width img.height mips allocOk
    (by omega) hw (by omega) hh hmr.2
  obtain ⟨c1, c2, c3, c4, _, _⟩ := copyImage_fields (t.Resize img.width img.height mips allocOk).2
    img
  have hps : ((t.Resize img.width img.height mips allocOk).2.copyImage img).mPixelSize
      = t.mPixelSize := by
    simp only [RenderTarget.mPixelSize, RenderTarget.mChannelSize, c1, f4]
  have hcopy : ((t.Resize img.width img.height mips allocOk).2.copyImage img).copySize img
      = t.mPixelSize * img.width * img.height := by
    unfold RenderTarget.copySize
    rw [hps]
    exact base_size t _ _ hw hh
  have hmono := pixelsBefore_mono img.width img.height (show 1 ≤ max 1 mips by omega)
  refine ⟨c3.trans f1, c4.trans f2, ?_, ?_⟩
  · rw [hcopy, hps, c3, c4, f1, f2, levelDim_zero _ (by omega), levelDim_zero _ (by omega)]
  · rw [hcopy, c2, f5]
    have e : t.mPixelSize * img.width * img.height
        = t.mPixelSize * pixelsBefore img.width img.height 1 := by
      simp only [pixelsBefore, zero_add, levelDim_zero img.width (by omega),
        levelDim_zero img.height (by omega)]
      ring
    rw [e]
    exact Nat.mul_le_mul_left _ hmono

/-- C18, the code at the failing input. For a decoded image 65537 pixels wide and 1 high,
`Load` into a valid target of three 8-bit channels returns true, the target is then 1 by 1
(`Resize` received 65537 as the `uint16_t` 1) and holds 3 bytes, while the copy is given
`3 * 65537 = 196611` bytes. -/
theorem load_truncates_wide_image :
    (sample443.Load (worldWith (some ⟨65537, 1, List.replicate 196611 (.byte 7)⟩)) "wide.png"
      false).1 = true ∧
    (sample443.Load (worldWith (some ⟨65537, 1, List.replicate 196611 (.byte 7)⟩)) "wide.png"
      false).2.mWidth = 1 ∧
    (sample443.Load (worldWith (some ⟨65537, 1, List.replicate 196611 (.byte 7)⟩)) "wide.png"
      false).2.mHeight = 1 ∧
    (sample443.Load (worldWith (some ⟨65537, 1, List.replicate 196611 (.byte 7)⟩)) "wide.png"
      false).2.mSize = 3 ∧
    (sample443.Load (worldWith (some ⟨65537, 1, List.replicate 196611 (.byte 7)⟩)) "wide.png"
      false).2.copySize ⟨65537, 1, List.replicate 196611 (.byte 7)⟩ = 196611 := by
  refine ⟨by rfl, by rfl, by rfl, by rfl, by rfl⟩

/-! ## Byte ranges of the pixels -/

/-- On a laid-out target two different in-range pixels occupy disjoint byte ranges. -/
theorem RenderTarget.Layout.pixelOffset_disjoint {t : RenderTarget} (hl : t.Layout)
    (x y mip x2 y2 mip2 : Nat)
    (hm : mip < t.mMips) (hx : x < levelDim t.mWidth mip) (hy : y < levelDim t.mHeight mip)
    (hm2 : mip2 < t.mMips) (hx2 : x2 < levelDim t.mWidth mip2)
    (hy2 : y2 < levelDim t.mHeight mip2) (hne : ¬(mip = mip2 ∧ x = x2 ∧ y = y2)) :
    t.pixelOffset x y mip + t.mPixelSize ≤ t.pixelOffset x2 y2 mip2 ∨
    t.pixelOffset x2 y2 mip2 + t.mPixelSize ≤ t.pixelOffset x y mip := by
  rw [(hl.pixelOffset_eq x y mip hm hx hy).1, (hl.pixelOffset_eq x2 y2 mip2 hm2 hx2 hy2).1]
  have hidx := pixelIndex_ne t.mWidth t.mHeight mip x y mip2 x2 y2 hx hy hx2 hy2 hne
  rcases Nat.lt_or_gt_of_ne hidx with hlt | hgt
  · left
    have := Nat.mul_le_mul_left t.mPixelSize (Nat.succ_le_of_lt hlt)
    rw [Nat.mul_succ] at this
    exact this
  · right
    have := Nat.mul_le_mul_left t.mPixelSize (Nat.succ_le_of_lt hgt)
    rw [Nat.mul_succ] at this
    exact this

theorem channel_byte_lt (fmt : RTFormat) (c j : Nat) (hc : c < CHANNELS fmt)
    (hj : j < STRIDES fmt) : c * STRIDES fmt + j < STRIDES fmt * CHANNELS fmt := by
  have h1 : (c + 1) * STRIDES fmt ≤ CHANNELS fmt * STRIDES fmt := Nat.mul_le_mul_right _ hc
  rw [Nat.succ_mul] at h1
  rw [Nat.mul_comm (STRIDES fmt)]
  omega

/-- C19. After a `Resize(width, height, mipCount)` that returned true, with `uint16_t` extents
and a mip count in 1..255, for every level below the count and every `(x, y)` inside its
extents: the offset of the pixel is `mMipOffsets[mip] + (y * w_mip + x) * mPixelSize` without
wrap, the pixel ends at or before `mSize`, so the guard `offset >= mSize` is not taken, and the
buffer has `mSize` bytes, so every byte of every channel of the pixel lies inside it. -/
theorem pixel_access_in_bounds (t : RenderTarget) (w h mips : Nat) (ok : Bool)
    (hw : w < 65536) (hh : h < 65536) (hm1 : 1 ≤ mips) (hm : mips < 256)
    (hok : (t.Resize w h mips ok).1 = true) (x y mip : Nat) (hmip : mip < mips)
    (hx : x < max 1 (w >>> mip)) (hy : y < max 1 (h >>> mip)) :
    (t.Resize w h mips ok).2.pixelOffset x y mip =
      (t.Resize w h mips ok).2.mMipOffsets mip +
        (y * max 1 (w >>> mip) + x) * (t.Resize w h mips ok).2.mPixelSize ∧
    (t.Resize w h mips ok).2.pixelOffset x y mip + (t.Resize w h mips ok).2.mPixelSize ≤
      (t.Resize w h mips ok).2.mSize ∧
    ¬((t.Resize w h mips ok).2.pixelOffset x y mip ≥ (t.Resize w h mips ok).2.mSize) ∧
    ∃ buf, (t.Resize w h mips ok).2.mpBuffer = some buf ∧
      buf.length = (t.Resize w h mips ok).2.mSize ∧
      ∀ c j, c < CHANNELS (t.Resize w h mips ok).2.mFormat →
        j < (t.Resize w h mips ok).2.mChannelSize →
        (t.Resize w h mips ok).2.pixelOffset x y mip +
          c * (t.Resize w h mips ok).2.mChannelSize + j < buf.length := by
  have hl := Resize_layout_of_success t w h mips ok hw hh hm hok
  have hnz := hok
  rw [Resize_fst] at hnz
  simp only [Bool.and_eq_true, decide_eq_true_eq, Ne, base_size_eq_zero t w h hw hh] at hnz
  obtain ⟨f1, f2, f3, _, _, _, _⟩ := Resize_fields t w h mips ok (by omega) hw (by omega) hh hm
  rw [← levelDim_eq_max] at hx hy ⊢
  generalize (t.Resize w h mips ok).2 = r at hl f1 f2 f3 ⊢
  subst f1 f2 f3
  obtain ⟨ho, hle⟩ := hl.pixelOffset_eq x y mip hmip hx hy
  obtain ⟨buf, hb, hlen⟩ := hl.buffer
  have hps := mPixelSize_pos r
  refine ⟨?_, ?_, ?_, buf, hb, hlen, ?_⟩
  · rw [ho, hl.offsets mip hmip]
    simp only [pixelIndex]
    ring
  · rw [ho]; exact hle
  · rw [ho]; omega
  · intro c j hc hj
    have := channel_byte_lt r.mFormat c j hc hj
    rw [ho, hlen]
    have e : r.mPixelSize = STRIDES r.mFormat * CHANNELS r.mFormat := rfl
    have e2 : r.mChannelSize = STRIDES r.mFormat := rfl
    rw [e2]
    omega

theorem pixel_access_in_bounds_witness :
    4 < 65536 ∧ 4 < 65536 ∧ 1 ≤ 3 ∧ 3 < 256 ∧
    ((emptyTarget .RGB888).Resize 4 4 3 true).1 = true ∧ 1 < 3 ∧ 1 < max 1 (4 >>> 1) ∧
    1 < max 1 (4 >>> 1) ∧
    ((emptyTarget .RGB888).Resize 4 4 3 true).2.pixelOffset 1 1 1 =
      ((emptyTarget .RGB888).Resize 4 4 3 true).2.mMipOffsets 1 +
        (1 * max 1 (4 >>> 1) + 1) * ((emptyTarget .RGB888).Resize 4 4 3 true).2.mPixelSize ∧
    ((emptyTarget .RGB888).Resize 4 4 3 true).2.pixelOffset 1 1 1 +
        ((emptyTarget .RGB888).Resize 4 4 3 true).2.mPixelSize ≤
      ((emptyTarget .RGB888).Resize 4 4 3 true).2.mSize ∧
    ((emptyTarget .RGB888).Resize 4 4 3 true).2.pixelOffset 1 1 1 = 57 ∧
    ((emptyTarget .RGB888).Resize 4 4 3 true).2.mSize = 63 :=
  have h := pixel_access_in_bounds (emptyTarget .RGB888) 4 4 3 true (by decide) (by decide)
    (by decide) (by decide) (by decide) 1 1 1 (by decide) (by decide) (by decide)
  ⟨by decide, by decide, by decide, by decide, by decide, by decide, by decide, by decide,
    h.1, h.2.1, by decide, by decide⟩

/-- C20. On a laid-out target (every target `Resize` has returned true on, also after earlier
writes), `SetPixel` at an in-range pixel leaves `GetPixel` at every other in-range pixel, of the
same level or of another, as it was: the two pixels occupy disjoint byte ranges; and it leaves
format, size, width, height, mip count and mip offsets as they were. -/
theorem set_pixel_changes_one_pixel (t : RenderTarget) (hl : t.Layout) (x y mip : Nat)
    (p : Pixel) (x2 y2 mip2 : Nat)
    (hm : mip < t.mMips) (hx : x < levelDim t.mWidth mip) (hy : y < levelDim t.mHeight mip)
    (hm2 : mip2 < t.mMips) (hx2 : x2 < levelDim t.mWidth mip2)
    (hy2 : y2 < levelDim t.mHeight mip2) (hne : ¬(mip2 = mip ∧ x2 = x ∧ y2 = y)) :
    (t.SetPixel x y p mip).GetPixel x2 y2 mip2 = t.GetPixel x2 y2 mip2 ∧
    (t.pixelOffset x2 y2 mip2 + t.mPixelSize ≤ t.pixelOffset x y mip ∨
      t.pixelOffset x y mip + t.mPixelSize ≤ t.pixelOffset x2 y2 mip2) ∧
    (t.SetPixel x y p mip).mWidth = t.mWidth ∧ (t.SetPixel x y p mip).mHeight = t.mHeight ∧
    (t.SetPixel x y p mip).mMips = t.mMips ∧
    (t.SetPixel x y p mip).mMipOffsets = t.mMipOffsets ∧
    (t.SetPixel x y p mip).mSize = t.mSize ∧ (t.SetPixel x y p mip).mFormat = t.mFormat := by
  obtain ⟨f1, f2, f3, f4, f5, f6⟩ := SetPixel_fields t x y mip p
  exact ⟨hl.GetPixel_SetPixel_of_ne x2 y2 mip2 x y mip p hne,
    hl.pixelOffset_disjoint x2 y2 mip2 x y mip hm2 hx2 hy2 hm hx hy hne, f3, f4, f5, f6, f2, f1⟩

theorem set_pixel_changes_one_pixel_witness :
    sample22.Layout ∧ 1 < sample22.mMips ∧ 0 < levelDim sample22.mWidth 1 ∧
    0 < levelDim sample22.mHeight 1 ∧ 0 < sample22.mMips ∧ 1 < levelDim sample22.mWidth 0 ∧
    1 < levelDim sample22.mHeight 0 ∧ ¬(0 = 1 ∧ 1 = 0 ∧ 1 = 0) ∧
    (sample22.SetPixel 0 0 ⟨1 / 3, 1 / 5, 1 / 7, 1⟩ 1).GetPixel 1 1 0 = ⟨1, 1, 1, 0⟩ ∧
    (sample22.pixelOffset 1 1 0 + sample22.mPixelSize ≤ sample22.pixelOffset 0 0 1 ∨
      sample22.pixelOffset 0 0 1 + sample22.mPixelSize ≤ sample22.pixelOffset 1 1 0) ∧
    (sample22.SetPixel 0 0 ⟨1 / 3, 1 / 5, 1 / 7, 1⟩ 1).mMipOffsets = sample22.mMipOffsets := by
  have h := set_pixel_changes_one_pixel sample22 sample22_layout 0 0 1 ⟨1 / 3, 1 / 5, 1 / 7, 1⟩
    1 1 0 (by decide) (by decide) (by decide) (by decide) (by decide) (by decide) (by decide)
  refine ⟨sample22_layout, by decide, by decide, by decide, by decide, by decide, by decide,
    by decide, ?_, h.2.1, h.2.2.2.2.2.1⟩
  rw [h.1]
  exact sample22_base.2.2.2

/-! ## The machine against the conventions of the first part -/

/-- Below a count of 32 every machine computes the extent of the first part. -/
theorem levelDimOn_eq (m : Machine) (d mip : Nat) (h : mip < 32) :
    m.levelDim d mip = levelDim d mip := by
  unfold Machine.levelDim levelDim
  rw [m.shr_defined d mip h]

theorem levelDimOn_pos (m : Machine) (d mip : Nat) : 1 ≤ m.levelDim d mip := by
  unfold Machine.levelDim
  split_ifs <;> omega

theorem readPixelOn_exact (m : Machine) (hfl : ∀ q, m.fl q = q) (fmt : RTFormat)
    (channelSize : Nat) (buf : List MemVal) (offset : Nat) :
    readPixelOn m fmt channelSize buf offset = readPixel fmt channelSize buf offset := by
  cases fmt <;> simp only [readPixelOn, readPixel, hfl]

theorem writePixelOn_exact (m : Machine) (hfl : ∀ q, m.fl q = q) (fmt : RTFormat)
    (channelSize : Nat) (buf : List MemVal) (offset : Nat) (p : Pixel) :
    writePixelOn m fmt channelSize buf offset p = writePixel fmt channelSize buf offset p := by
  cases fmt <;> simp only [writePixelOn, writePixel, toByteOn, toByte, hfl]

theorem blendOn_exact (m : Machine) (hfl : ∀ q, m.fl q = q)
    (c00 c10 c01 c11 uFract uFractInv vFract vFractInv : ℚ) :
    blendOn m c00 c10 c01 c11 uFract uFractInv vFract vFractInv =
      blend c00 c10 c01 c11 uFract uFractInv vFract vFractInv := by
  simp only [blendOn, blend, hfl]

/-- With exact float arithmetic and below level 32, `GetPixel` on a machine is the `GetPixel` of
the first part. -/
theorem GetPixelOn_exact (m : Machine) (hfl : ∀ q, m.fl q = q) (t : RenderTarget)
    (x y mip : Nat) (h : mip < 32) : t.GetPixelOn m x y mip = t.GetPixel x y mip := by
  unfold RenderTarget.GetPixelOn RenderTarget.GetPixel RenderTarget.pixelOffsetOn
    RenderTarget.pixelOffset
  simp only [levelDimOn_eq m _ mip h, readPixelOn_exact m hfl]

/-- With exact float arithmetic and below level 32, `SetPixel` on a machine is the `SetPixel` of
the first part. -/
theorem SetPixelOn_exact (m : Machine) (hfl : ∀ q, m.fl q = q) (t : RenderTarget)
    (x y mip : Nat) (p : Pixel) (h : mip < 32) :
    t.SetPixelOn m x y p mip = t.SetPixel x y p mip := by
  unfold RenderTarget.SetPixelOn RenderTarget.SetPixel RenderTarget.pixelOffsetOn
    RenderTarget.pixelOffset
  simp only [levelDimOn_eq m _ mip h, writePixelOn_exact m hfl]

/-- With exact float arithmetic and below level 32, `SampleBilinear` on a machine is the
`SampleBilinear` of the first part. -/
theorem SampleBilinearOn_exact (m : Machine) (hfl : ∀ q, m.fl q = q) (t : RenderTarget)
    (u v : ℚ) (mip : Nat) (h : mip < 32) :
    t.SampleBilinearOn m u v mip = t.SampleBilinear u v mip := by
  unfold RenderTarget.SampleBilinearOn RenderTarget.SampleBilinear
  simp only [levelDimOn_eq m _ mip h, hfl, blendOn_exact m hfl, GetPixelOn_exact m hfl _ _ _ _ h]

theorem GetPixelOn_ideal (t : RenderTarget) (x y mip : Nat) :
    t.GetPixelOn Machine.ideal x y mip = t.GetPixel x y mip := by
  unfold RenderTarget.GetPixelOn RenderTarget.GetPixel RenderTarget.pixelOffsetOn
    RenderTarget.pixelOffset
  simp only [readPixelOn_exact Machine.ideal (fun _ => rfl)]
  rfl

theorem SetPixelOn_ideal (t : RenderTarget) (x y mip : Nat) (p : Pixel) :
    t.SetPixelOn Machine.ideal x y p mip = t.SetPixel x y p mip := by
  unfold RenderTarget.SetPixelOn RenderTarget.SetPixel RenderTarget.pixelOffsetOn
    RenderTarget.pixelOffset
  simp only [writePixelOn_exact Machine.ideal (fun _ => rfl)]
  rfl

theorem SampleBilinearOn_ideal (t : RenderTarget) (u v : ℚ) (mip : Nat) :
    t.SampleBilinearOn Machine.ideal u v mip = t.SampleBilinear u v mip := by
  unfold RenderTarget.SampleBilinearOn RenderTarget.SampleBilinear
  simp only [blendOn_exact Machine.ideal (fun _ => rfl), GetPixelOn_ideal]
  rfl

theorem genLevelOn_ideal (width height mip : Nat) (t : RenderTarget) :
    genLevelOn Machine.ideal width height mip t = genLevel width height mip t := by
  have hp : ∀ (s : RenderTarget) (x y : Nat),
      genPixelOn Machine.ideal width height mip s x y = genPixel width height mip s x y := by
    intro s x y
    unfold genPixelOn genPixel
    simp only [SetPixelOn_ideal, SampleBilinearOn_ideal]
    rfl
  unfold genLevelOn genLevel genRowOn genRow
  simp only [hp]

theorem genLoopOn_ideal (n mip width height : Nat) (t : RenderTarget) :
    genLoopOn Machine.ideal n mip width height t = genLoop n mip width height t := by
  induction n generalizing mip width height t with
  | zero => rfl
  | succ n ih => simp only [genLoopOn, genLoop, genLevelOn_ideal, ih]

/-- On the ideal machine `GenerateMIPs` is the `GenerateMIPs` of the first part. -/
theorem GenerateMIPsOn_ideal (t : RenderTarget) :
    t.GenerateMIPsOn Machine.ideal = t.GenerateMIPs := by
  unfold RenderTarget.GenerateMIPsOn RenderTarget.GenerateMIPs
  rw [genLoopOn_ideal]

/-! ## The accessors at and beyond level 32 -/

/-- On every machine the guards of the accessors are silent for a target that is not valid and
for a level that is not below `mMips`, and below level 32 also for a position outside the
extents `max(1, width >> mip)`, `max(1, height >> mip)`. -/
theorem guards_silent_on (m : Machine) (t : RenderTarget) (x y mip : Nat) (p : Pixel)
    (h : t.IsValid = false ∨ mip ≥ t.mMips ∨
      (mip < 32 ∧ (x ≥ max 1 (t.mWidth >>> mip) ∨ y ≥ max 1 (t.mHeight >>> mip)))) :
    t.GetPixelOn m x y mip = Pixel.zero ∧ t.SetPixelOn m x y p mip = t := by
  unfold RenderTarget.GetPixelOn RenderTarget.SetPixelOn
  rcases h with h | h | ⟨hm, h⟩
  · simp [h]
  · simp [h]
  · rw [← levelDim_eq_max, ← levelDim_eq_max, ← levelDimOn_eq m _ _ hm,
      ← levelDimOn_eq m _ _ hm] at h
    have hg : (x ≥ m.levelDim t.mWidth mip ∨ y ≥ m.levelDim t.mHeight mip) := h
    constructor
    · split
      · rfl
      · simp only [hg, if_true]
    · split
      · rfl
      · simp only [hg, if_true]

/-- With exact float arithmetic and below level 32 the sample at the centre of a texel is the
texel, on every machine. -/
theorem sample_centre_on (m : Machine) (hfl : ∀ q, m.fl q = q) (t : RenderTarget)
    (x y mip : Nat) (hm : mip < 32) (hW : t.mWidth < 65536) (hH : t.mHeight < 65536)
    (hx : x < levelDim t.mWidth mip) (hy : y < levelDim t.mHeight mip) :
    t.SampleBilinearOn m (((x : ℚ) + 1 / 2) / (levelDim t.mWidth mip : ℚ))
      (((y : ℚ) + 1 / 2) / (levelDim t.mHeight mip : ℚ)) mip = t.GetPixelOn m x y mip := by
  rw [SampleBilinearOn_exact m hfl _ _ _ _ hm, GetPixelOn_exact m hfl _ _ _ _ hm]
  exact sample_at_texel_centre t x y mip hW hH hx hy

/-- With exact float arithmetic and below level 32 the four coordinates the sampler hands to
`GetPixel` lie inside the extents of the sampled level, on every machine. -/
theorem cornersOn_inside (m : Machine) (hfl : ∀ q, m.fl q = q) (t : RenderTarget) (u v : ℚ)
    (mip : Nat) (hm : mip < 32) (hW : t.mWidth < 65536) (hH : t.mHeight < 65536) :
    ∀ c ∈ t.cornersOn m u v mip,
      c.1 < max 1 (t.mWidth >>> mip) ∧ c.2 < max 1 (t.mHeight >>> mip) := by
  have hwle := levelDim_le t.mWidth mip
  have hhle := levelDim_le t.mHeight mip
  have hx : ∀ off : ℤ, off = 0 ∨ off = 1 →
      cornerCoord u (levelDim t.mWidth mip) off < levelDim t.mWidth mip := fun off ho =>
    cornerCoord_lt u _ off (levelDim_pos _ _) (by omega) ho
  have hy : ∀ off : ℤ, off = 0 ∨ off = 1 →
      cornerCoord v (levelDim t.mHeight mip) off < levelDim t.mHeight mip := fun off ho =>
    cornerCoord_lt v _ off (levelDim_pos _ _) (by omega) ho
  intro c hc
  unfold RenderTarget.cornersOn at hc
  simp only [hfl, levelDimOn_eq m _ _ hm, List.mem_cons, List.mem_singleton,
    List.not_mem_nil, or_false] at hc
  rw [← levelDim_eq_max, ← levelDim_eq_max]
  rcases hc with rfl | rfl | rfl | rfl
  · exact ⟨hx 0 (Or.inl rfl), hy 0 (Or.inl rfl)⟩
  · exact ⟨hx 1 (Or.inr rfl), hy 0 (Or.inl rfl)⟩
  · exact ⟨hx 0 (Or.inl rfl), hy 1 (Or.inr rfl)⟩
  · exact ⟨hx 1 (Or.inr rfl), hy 1 (Or.inr rfl)⟩

/-- The sample depends on the target only through the extents and the four pixels at the
coordinates `cornersOn`. -/
theorem SampleBilinearOn_congr (m : Machine) (t s : RenderTarget) (u v : ℚ) (mip : Nat)
    (hW : t.mWidth = s.mWidth) (hH : t.mHeight = s.mHeight)
    (hp : ∀ c ∈ t.cornersOn m u v mip,
      t.GetPixelOn m c.1 c.2 mip = s.GetPixelOn m c.1 c.2 mip) :
    t.SampleBilinearOn m u v mip = s.SampleBilinearOn m u v mip := by
  unfold RenderTarget.cornersOn at hp
  simp only [List.mem_cons, List.mem_singleton, List.not_mem_nil, or_false, forall_eq_or_imp,
    forall_eq] at hp
  obtain ⟨h00, h10, h01, h11⟩ := hp
  unfold RenderTarget.SampleBilinearOn
  simp only [← hW, ← hH]
  simp only [h00, h10, h01, h11]

/-- C3, the code at the failing input. On an x86 machine, at level 32 of a valid 4 by 4 target
with 40 levels, `x = 1` is not below `max(1, width >> 32) = 1`, yet `SetPixel(1, 0, p, 32)`
changes the buffer (byte 51, the pixel of level 33, becomes 255) and `GetPixel(1, 0, 32)` then
returns 1 in the red channel and not the zero pixel. With the mathematical shift the same call
is a no-op. -/
theorem set_pixel_writes_outside_level :
    sample4440.IsValid = true ∧ 32 < sample4440.mMips ∧
    1 ≥ max 1 (sample4440.mWidth >>> 32) ∧
    sample4440.cell 51 = MemVal.byte 0 ∧
    (sample4440.SetPixelOn Machine.x86 1 0 ⟨1, 0, 0, 0⟩ 32).cell 51 = MemVal.byte 255 ∧
    sample4440.mMipOffsets 33 = 51 ∧
    (sample4440.SetPixelOn Machine.x86 1 0 ⟨1, 0, 0, 0⟩ 32).GetPixelOn Machine.x86 1 0 32 =
      ⟨1, 0, 0, 0⟩ ∧
    (sample4440.SetPixelOn Machine.x86 1 0 ⟨1, 0, 0, 0⟩ 32).GetPixelOn Machine.x86 0 0 33 =
      ⟨1, 0, 0, 0⟩ ∧
    sample4440.SetPixelOn Machine.ideal 1 0 ⟨1, 0, 0, 0⟩ 32 = sample4440 :=
  ⟨by decide, by decide, by decide, by decide, by decide!, by decide, by decide!, by decide!,
    (SetPixelOn_ideal sample4440 1 0 32 ⟨1, 0, 0, 0⟩).trans
      (SetPixel_of_guard sample4440 1 0 32 ⟨1, 0, 0, 0⟩
        (Or.inr (Or.inr (Or.inl (by decide)))))⟩

/-- C4, the code at the failing input. On an x86 machine, for a valid 4 by 4 target with 40
levels whose level 32, one pixel wide and high, holds the pixel (1, 0, 0, 0), the sample at the
centre `((0 + 0.5) / 1, (0 + 0.5) / 1)` of that pixel is (1/4, 0, 0, 0), a quarter of the pixel
of level 37, and not `GetPixel(0, 0, 32)`, with float arithmetic exact as well as rounded. -/
theorem sample_misses_texel_at_level_32 :
    sampleLevel32.IsValid = true ∧ 32 < sampleLevel32.mMips ∧
    max 1 (sampleLevel32.mWidth >>> 32) = 1 ∧ max 1 (sampleLevel32.mHeight >>> 32) = 1 ∧
    sampleLevel32.mMipOffsets 33 =
      sampleLevel32.mMipOffsets 32 + 1 * 1 * sampleLevel32.mPixelSize ∧
    sampleLevel32.GetPixelOn Machine.x86Exact 0 0 32 = ⟨1, 0, 0, 0⟩ ∧
    sampleLevel32.SampleBilinearOn Machine.x86Exact
      ((((0 : Nat) : ℚ) + 1 / 2) / ((1 : Nat) : ℚ))
      ((((0 : Nat) : ℚ) + 1 / 2) / ((1 : Nat) : ℚ)) 32 = ⟨1 / 4, 0, 0, 0⟩ ∧
    sampleLevel32.GetPixelOn Machine.x86 0 0 32 = ⟨1, 0, 0, 0⟩ ∧
    sampleLevel32.SampleBilinearOn Machine.x86
      ((((0 : Nat) : ℚ) + 1 / 2) / ((1 : Nat) : ℚ))
      ((((0 : Nat) : ℚ) + 1 / 2) / ((1 : Nat) : ℚ)) 32 = ⟨1 / 4, 0, 0, 0⟩ := by
  decide!

/-- C17, the code at the failing input. On an x86 machine, at level 32 of a valid 4 by 4 target
with 40 levels, the sampler wraps with the divisor 4 and hands `GetPixel` the coordinates
(1,1), (2,1), (1,2), (2,2), none of them inside the extents (1, 1) of level 32. On the target
whose only non-zero pixel is that of level 37 the sample of level 32 at (0.5, 0.5) is
(1/4, 0, 0, 0): `GetPixel(1, 1, 32)` reads the pixel of level 37, while the one pixel of
level 32 is zero. -/
theorem sampler_fetches_outside_level_32 :
    sampleLevel37.IsValid = true ∧ 32 < sampleLevel37.mMips ∧
    max 1 (sampleLevel37.mWidth >>> 32) = 1 ∧ max 1 (sampleLevel37.mHeight >>> 32) = 1 ∧
    sampleLevel37.cornersOn Machine.x86 (1 / 2) (1 / 2) 32 = [(1, 1), (2, 1), (1, 2), (2, 2)] ∧
    sampleLevel37.GetPixelOn Machine.x86 0 0 32 = Pixel.zero ∧
    sampleLevel37.GetPixelOn Machine.x86 1 1 32 = ⟨1, 0, 0, 0⟩ ∧
    sampleLevel37.GetPixelOn Machine.x86 0 0 37 = ⟨1, 0, 0, 0⟩ ∧
    sampleLevel37.SampleBilinearOn Machine.x86 (1 / 2) (1 / 2) 32 = ⟨1 / 4, 0, 0, 0⟩ := by
  decide!

/-! ## Mip generation with rounded arithmetic -/

/-- Values of the rounding to binary32: to nearest, ties to even, also for negative values. -/
theorem roundF32_values :
    roundF32 (1 / 3) = 11184811 / 33554432 ∧ roundF32 (-1 / 3) = -11184811 / 33554432 ∧
    roundF32 (1 / 10) = 13421773 / 134217728 ∧ roundF32 (120 / 255) = 15790321 / 33554432 ∧
    roundF32 255 = 255 ∧ roundF32 (1 + 1 / 2 ^ 24) = 1 ∧
    roundF32 (1 + 3 / 2 ^ 24) = 4194305 / 4194304 := by
  decide!

/-- C6, counterexample. On an x86 machine, for the 2 by 2 target of one 8-bit channel with two
levels and the base bytes 120, 115, 58, 243, `GenerateMIPs` stores the byte 133 in level 1: the
rounded blend is `0x1.0d0d0cp-1`, its rounded product with 255 lies below 134 and is truncated.
`SetPixel` of the arithmetic mean of the four base pixels (rounded to a float) stores 134, so the
pixel of level 1 is not the value `SetPixel` stores for the mean, nor the mean itself. With exact
arithmetic the stored value is the mean as the format holds it, not the mean: for the base
pixels 1, 0, 0, 0 the pixel of level 1 is 63/255 and the mean is 1/4. -/
theorem generated_pixel_differs_from_mean :
    sampleBytes.IsValid = true ∧ sampleBytes.mMips = 2 ∧
    levelDim sampleBytes.mWidth 0 = 2 * levelDim sampleBytes.mWidth 1 ∧
    levelDim sampleBytes.mHeight 0 = 2 * levelDim sampleBytes.mHeight 1 ∧
    [sampleBytes.cell 0, sampleBytes.cell 1, sampleBytes.cell 2, sampleBytes.cell 3] =
      [MemVal.byte 120, MemVal.byte 115, MemVal.byte 58, MemVal.byte 243] ∧
    (sampleBytes.SampleBilinearOn Machine.x86 (1 / 2) (1 / 2) 0).r = 4408131 / 8388608 ∧
    (sampleBytes.GenerateMIPsOn Machine.x86).cell 4 = MemVal.byte 133 ∧
    (sampleBytes.SetPixelOn Machine.x86 0 0
      (roundPixel (mean4 (sampleBytes.GetPixelOn Machine.x86 0 0 0)
        (sampleBytes.GetPixelOn Machine.x86 1 0 0) (sampleBytes.GetPixelOn Machine.x86 0 1 0)
        (sampleBytes.GetPixelOn Machine.x86 1 1 0))) 1).cell 4 = MemVal.byte 134 ∧
    (sampleBytes.GenerateMIPsOn Machine.x86).GetPixelOn Machine.x86 0 0 1 ≠
      (sampleBytes.SetPixelOn Machine.x86 0 0
        (roundPixel (mean4 (sampleBytes.GetPixelOn Machine.x86 0 0 0)
          (sampleBytes.GetPixelOn Machine.x86 1 0 0) (sampleBytes.GetPixelOn Machine.x86 0 1 0)
          (sampleBytes.GetPixelOn Machine.x86 1 1 0))) 1).GetPixelOn Machine.x86 0 0 1 ∧
    (sampleBytes.GenerateMIPsOn Machine.x86).GetPixelOn Machine.x86 0 0 1 ≠
      roundPixel (mean4 (sampleBytes.GetPixelOn Machine.x86 0 0 0)
        (sampleBytes.GetPixelOn Machine.x86 1 0 0) (sampleBytes.GetPixelOn Machine.x86 0 1 0)
        (sampleBytes.GetPixelOn Machine.x86 1 1 0)) ∧
    (sampleBytes.GenerateMIPsOn Machine.x86).GetPixelOn Machine.x86 0 0 1 =
      ⟨roundF32 (133 / 255), 0, 0, 0⟩ ∧
    roundPixel (mean4 (sampleBytes.GetPixelOn Machine.x86 0 0 0)
      (sampleBytes.GetPixelOn Machine.x86 1 0 0) (sampleBytes.GetPixelOn Machine.x86 0 1 0)
      (sampleBytes.GetPixelOn Machine.x86 1 1 0)) = ⟨roundF32 (134 / 255), 0, 0, 0⟩ ∧
    sampleOne.GenerateMIPs.GetPixel 0 0 1 = ⟨63 / 255, 0, 0, 0⟩ ∧
    mean4 (sampleOne.GetPixel 0 0 0) (sampleOne.GetPixel 1 0 0) (sampleOne.GetPixel 0 1 0)
      (sampleOne.GetPixel 1 1 0) = ⟨1 / 4, 0, 0, 0⟩ := by
  decide!

end VisTrace
